import Mathlib

/-! # ImageLabeler: the annotation container and its undo/redo history

A shallow embedding of `src/annotationcontainer.cpp` (class `AnnotationContainer`),
followed by the mouse handlers of `src/canvas.cpp` (class `Canvas`).

* `QList<AnnoItemPtr> items` and `QStack<AnnotationOp> ops` are Lean lists
  (the stack's top is the last element, as in `QVector`).
* The C++ `int` fields `curVersion`, `selectedIdx`, `idx` and `id` are `Int`.
  List lengths are converted to `Int` exactly where the source calls `length()`.
  A `QList` holds fewer than `2^31` elements, so `length()` and `++curVersion` stay
  within `int`; the one sum on caller-supplied numbers, `maxId+1` in
  `newInstanceIdForLabel`, is checked against `INT_MAX`.
* A member function that changes the container returns an `Outcome`: it returned
  normally in a new state, it threw one of the string exceptions in the state it
  had reached at the `throw`, or it left the defined behaviour of C++/Qt
  (indexing a `QList` out of range, `pop` on an empty stack, signed overflow).
* A `const` member function returns a `Result`.
* Qt signals (`emit ...`) carry no state of the container; the two booleans sent by
  `emitUndoRedoEnable` are the functions `canUndo` and `canRedo`.
-/

namespace ImageLabeler

/-! ## Data model -/

/-- Modelled from the spec: `AnnotationItem` is declared in `annotationitem.h`, which is
not among the sources. The container reads only `label` and `id`; the variant-specific
geometry is kept as uninterpreted data. An `AnnoItemPtr` handed to the container is taken
to be a non-null handle, and two handles are compared by the value they point to. -/
structure AnnotationItem where
  label : String
  id : Int
  geometry : List Int
deriving DecidableEq, Repr

/-- Modelled from the spec: the enumeration behind `AnnotationOp::opClass` is declared in
`annotationcontainer.h`, which is not among the sources; its tags are the three the code
compares against, `PUSH`, `REMOVE`, `MODIFY`. -/
inductive OpClass where
  | PUSH
  | REMOVE
  | MODIFY
deriving DecidableEq, Repr

/-- Modelled from the spec: the aggregate `AnnotationOp` of `annotationcontainer.h`, with
the fields in the order of the initialisers `AnnotationOp{opClass, idx, item, item2}`;
`item2` is `nullptr` (`none`) in the entries built by `push_back` and `remove`. -/
structure AnnotationOp where
  opClass : OpClass
  idx : Int
  item : AnnotationItem
  item2 : Option AnnotationItem
deriving DecidableEq, Repr

/-- Modelled from the spec: the member variables of `AnnotationContainer`, declared in
`annotationcontainer.h`: the list `items`, the stack `ops` (the spec's log), and the
integers `curVersion` (the spec's cursor) and `selectedIdx`. -/
structure AnnotationContainer where
  items : List AnnotationItem
  ops : List AnnotationOp
  curVersion : Int
  selectedIdx : Int
deriving DecidableEq, Repr

/-- The three string exceptions thrown in `annotationcontainer.cpp`, and the exception an
item decoder of the collaborating item classes may throw. -/
inductive Error where
  /-- The exception `throw "idx out of range"` (the spec's `IndexError`). -/
  | idxOutOfRange
  /-- The exception `throw "new instance id out of range [0,255]"` (the spec's `RangeError`). -/
  | idOutOfRange
  /-- The exception `throw "content <annotations> in json is not array"` (the spec's `FormatError`). -/
  | notArray
  /-- An exception raised inside `RectAnnotationItem::fromJsonObject` or
  `SegAnnotationItem::fromJsonObject`. -/
  | decode
deriving DecidableEq, Repr

/-- How a call of a state-changing member function ends. -/
inductive Outcome where
  /-- The call returned; the container is in state `c`. -/
  | ok (c : AnnotationContainer)
  /-- The call threw `e`; the container was in state `c` at the `throw`. -/
  | thrown (e : Error) (c : AnnotationContainer)
  /-- The call violated a precondition of the language or of a Qt container. -/
  | undefined
deriving DecidableEq, Repr

/-- How a call of a `const` member function ends. -/
inductive Result (α : Type) where
  | ok (a : α)
  | thrown (e : Error)
  | undefined
deriving DecidableEq, Repr

/-- Sequencing of two state-changing calls: the second runs only if the first returned. -/
def Outcome.andThen (o : Outcome) (f : AnnotationContainer → Outcome) : Outcome :=
  match o with
  | .ok c => f c
  | .thrown e c => .thrown e c
  | .undefined => .undefined

/-- The largest value of a C++ `int`. -/
def INT_MAX : Int := 2147483647

/-! ## Qt container primitives -/

/-- Element `i` of a list for an `int` index: `QList::operator[]` and `QList::at`;
`none` when `i` is not a valid index position. -/
def getAt {α : Type} (l : List α) (i : Int) : Option α :=
  if 0 ≤ i then l[i.toNat]? else none

/-- The constructor `AnnotationContainer::AnnotationContainer`: empty lists,
`curVersion(-1)`, `selectedIdx(-1)`. -/
def init : AnnotationContainer :=
  { items := [], ops := [], curVersion := -1, selectedIdx := -1 }

/-! ## Member functions -/

/-- The member `checkIdx`: throws unless `idx>=0 && idx<items.length()`. -/
def checkIdx (c : AnnotationContainer) (idx : Int) : Result Unit :=
  if ¬ (idx ≥ 0 ∧ idx < (c.items.length : Int)) then .thrown .idxOutOfRange else .ok ()

/-- The loop `while (curVersion!=ops.length()-1) ops.pop();` of `pushBackOp`, on the
stack given top first. Popping an empty stack is outside the contract of `QStack::pop`. -/
def popStale (curVersion : Int) : List AnnotationOp → Option (List AnnotationOp)
  | [] => if curVersion ≠ (0 : Int) - 1 then none else some []
  | top :: below =>
    if curVersion ≠ ((below.length + 1 : Nat) : Int) - 1 then popStale curVersion below
    else some (top :: below)

/-- The member `pushBackOp`: drop the entries above `curVersion`, push `op`,
increment `curVersion` (`emitUndoRedoEnable` changes nothing). -/
def pushBackOp (c : AnnotationContainer) (op : AnnotationOp) : Outcome :=
  match popStale c.curVersion c.ops.reverse with
  | none => .undefined
  | some kept => .ok { c with ops := kept.reverse ++ [op], curVersion := c.curVersion + 1 }

/-- The member `push_back`. -/
def push_back (c : AnnotationContainer) (item : AnnotationItem) : Outcome :=
  (pushBackOp c { opClass := .PUSH, idx := 0, item := item, item2 := none }).andThen fun c1 =>
    .ok { c1 with items := c1.items ++ [item] }

/-- The member `remove`. After `checkIdx` the accesses `items[idx]` and
`items.removeAt(idx)` are within range. -/
def remove (c : AnnotationContainer) (idx : Int) : Outcome :=
  match checkIdx c idx with
  | .thrown e => .thrown e c
  | .undefined => .undefined
  | .ok () =>
    match getAt c.items idx with
    | none => .undefined
    | some old =>
      (pushBackOp c { opClass := .REMOVE, idx := idx, item := old, item2 := none }).andThen
        fun c1 => .ok { c1 with items := c1.items.eraseIdx idx.toNat }

/-- The member `modify`. -/
def modify (c : AnnotationContainer) (idx : Int) (item : AnnotationItem) : Outcome :=
  match checkIdx c idx with
  | .thrown e => .thrown e c
  | .undefined => .undefined
  | .ok () =>
    match getAt c.items idx with
    | none => .undefined
    | some old =>
      (pushBackOp c { opClass := .MODIFY, idx := idx, item := old, item2 := some item }).andThen
        fun c1 => .ok { c1 with items := c1.items.set idx.toNat item }

/-- The member `redo`. `ops[++curVersion]`, `items.removeAt(op.idx)` and
`items[op.idx] = op.item2` require valid index positions. -/
def redo (c : AnnotationContainer) : Outcome :=
  if c.curVersion = (c.ops.length : Int) - 1 then .ok c
  else
    match getAt c.ops (c.curVersion + 1) with
    | none => .undefined
    | some op =>
      match op.opClass with
      | .PUSH => .ok { c with curVersion := c.curVersion + 1, items := c.items ++ [op.item] }
      | .REMOVE =>
        match getAt c.items op.idx with
        | none => .undefined
        | some _ =>
          .ok { c with curVersion := c.curVersion + 1, items := c.items.eraseIdx op.idx.toNat }
      | .MODIFY =>
        match getAt c.items op.idx, op.item2 with
        | some _, some new =>
          .ok { c with curVersion := c.curVersion + 1, items := c.items.set op.idx.toNat new }
        | _, _ => .undefined

/-- The member `undo`. `ops[curVersion--]`, `items.pop_back()`, `items.insert(op.idx, ..)`
and `items[op.idx] = op.item` require a valid index position, a non-empty list, an
index in `[0, size]` and a valid index position respectively. -/
def undo (c : AnnotationContainer) : Outcome :=
  if c.curVersion = -1 then .ok c
  else
    match getAt c.ops c.curVersion with
    | none => .undefined
    | some op =>
      match op.opClass with
      | .PUSH =>
        if c.items = [] then .undefined
        else .ok { c with curVersion := c.curVersion - 1, items := c.items.dropLast }
      | .REMOVE =>
        if 0 ≤ op.idx ∧ op.idx ≤ (c.items.length : Int) then
          .ok { c with curVersion := c.curVersion - 1,
                       items := c.items.take op.idx.toNat ++ op.item :: c.items.drop op.idx.toNat }
        else .undefined
      | .MODIFY =>
        match getAt c.items op.idx with
        | none => .undefined
        | some _ =>
          .ok { c with curVersion := c.curVersion - 1, items := c.items.set op.idx.toNat op.item }

/-- The member `setSelected`. -/
def setSelected (c : AnnotationContainer) (idx : Int) : Outcome :=
  .ok { c with selectedIdx := idx }

/-- The member `length`. -/
def length (c : AnnotationContainer) : Int := (c.items.length : Int)

/-- The member `operator[]` (the spec names it `at`, a reserved word here). -/
def itemAt (c : AnnotationContainer) (idx : Int) : Result AnnotationItem :=
  match checkIdx c idx with
  | .thrown e => .thrown e
  | .undefined => .undefined
  | .ok () =>
    match getAt c.items idx with
    | none => .undefined
    | some item => .ok item

/-- The member `hasData`. -/
def hasData (c : AnnotationContainer) (label : String) : Bool :=
  c.items.any fun item => item.label = label

/-- The member `getSelectedIdx`. -/
def getSelectedIdx (c : AnnotationContainer) : Int := c.selectedIdx

/-- The member `getSelectedItem`: `items[selectedIdx]` without a check. -/
def getSelectedItem (c : AnnotationContainer) : Result AnnotationItem :=
  match getAt c.items c.selectedIdx with
  | none => .undefined
  | some item => .ok item

/-- One pass of the first loop of `newInstanceIdForLabel`, over an item. -/
def scanItem (label : String) (maxId : Int) (item : AnnotationItem) : Int :=
  if item.label = label then max item.id maxId else maxId

/-- One pass of the second loop of `newInstanceIdForLabel`, over a log entry. -/
def scanOp (label : String) (maxId : Int) (op : AnnotationOp) : Int :=
  let maxId1 := if op.item.label = label then max op.item.id maxId else maxId
  match op.item2 with
  | some item2 => if item2.label = label then max item2.id maxId1 else maxId1
  | none => maxId1

/-- The value of `maxId` after both loops of `newInstanceIdForLabel`. -/
def scanMaxId (c : AnnotationContainer) (label : String) : Int :=
  c.ops.foldl (scanOp label) (c.items.foldl (scanItem label) (-1))

/-- The member `newInstanceIdForLabel` (the spec's `nextInstanceId`). `maxId+1` is
computed in `int`; it overflows when `maxId` is `INT_MAX`. -/
def newInstanceIdForLabel (c : AnnotationContainer) (label : String) : Result Int :=
  let maxId := scanMaxId c label
  if maxId + 1 > INT_MAX then .undefined
  else if maxId + 1 > 255 then .thrown .idOutOfRange
  else .ok (maxId + 1)

/-- The member `allClear`. -/
def allClear (_c : AnnotationContainer) : Outcome :=
  .ok { items := [], ops := [], curVersion := -1, selectedIdx := -1 }

/-- The argument of `emit UndoEnableChanged(..)` in `emitUndoRedoEnable`. -/
def canUndo (c : AnnotationContainer) : Bool :=
  c.curVersion != -1

/-- The argument of `emit RedoEnableChanged(..)` in `emitUndoRedoEnable`. -/
def canRedo (c : AnnotationContainer) : Bool :=
  c.curVersion != (c.ops.length : Int) - 1

/-! ## JSON import -/

/-- A `QJsonValue`, by its seven types. The container inspects only `isArray`,
`isObject`, and the field `annotations` of an object. -/
inductive QJsonValue where
  | null
  | bool (b : Bool)
  | double (bits : Nat)
  | string (s : String)
  | array (elements : List QJsonValue)
  | object (fields : List (String × QJsonValue))
  | undefined

/-- A `QJsonObject`: its fields as a list of keys with their values. -/
abbrev QJsonObject := List (String × QJsonValue)

/-- The call `json.contains(key)` of `QJsonObject`. -/
def QJsonObject.contains (json : QJsonObject) (key : String) : Bool :=
  json.any fun field => field.1 = key

/-- The call `json.value(key)` of `QJsonObject`; `QJsonValue::Undefined` when the key is
missing. -/
def QJsonObject.value (json : QJsonObject) (key : String) : QJsonValue :=
  match json.find? fun field => field.1 = key with
  | some field => field.2
  | none => .undefined

/-- The item classes' `fromJsonObject` members (`rectannotationitem.h`,
`segannotationitem.h`), which are not among the sources: a default-constructed item
filled from a JSON object. They are parameters of the import functions. -/
structure ItemDecoders where
  rect : QJsonObject → Result AnnotationItem
  seg : QJsonObject → Result AnnotationItem

/-- The member `fromJsonArray`: elements that are objects are decoded by the decoder the
`format` string selects and handed to `push_back`; other elements, and every element
under another `format`, are passed over. -/
def fromJsonArray (dec : ItemDecoders) (c : AnnotationContainer) (json : List QJsonValue)
    (format : String) : Outcome :=
  match json with
  | [] => .ok c
  | value :: rest =>
    match value with
    | .object obj =>
      if format = "Detection " then
        match dec.rect obj with
        | .ok item => (push_back c item).andThen fun c1 => fromJsonArray dec c1 rest format
        | .thrown e => .thrown e c
        | .undefined => .undefined
      else if format = "Segmentation " then
        match dec.seg obj with
        | .ok item => (push_back c item).andThen fun c1 => fromJsonArray dec c1 rest format
        | .thrown e => .thrown e c
        | .undefined => .undefined
      else fromJsonArray dec c rest format
    | _ => fromJsonArray dec c rest format

/-- The member `fromJsonObject`. Without a field `annotations` it writes a debug line and
returns. -/
def fromJsonObject (dec : ItemDecoders) (c : AnnotationContainer) (json : QJsonObject)
    (format : String) : Outcome :=
  if json.contains "annotations" then
    match json.value "annotations" with
    | .array elements => fromJsonArray dec c elements format
    | _ => .thrown .notArray c
  else .ok c

/-! ## Sessions: sequences of calls -/

/-- A call of one of the state-changing members of the editing interface. -/
inductive Call where
  | push_back (item : AnnotationItem)
  | remove (idx : Int)
  | modify (idx : Int) (item : AnnotationItem)
  | undo
  | redo
  | setSelected (idx : Int)
  | allClear
deriving DecidableEq, Repr

/-- The effect of one call. -/
def step (c : AnnotationContainer) : Call → Outcome
  | .push_back item => push_back c item
  | .remove idx => remove c idx
  | .modify idx item => modify c idx item
  | .undo => undo c
  | .redo => redo c
  | .setSelected idx => setSelected c idx
  | .allClear => allClear c

/-- A sequence of calls, each of which returns normally before the next is made. -/
def runCalls (c : AnnotationContainer) : List Call → Outcome
  | [] => .ok c
  | call :: rest => (step c call).andThen fun c1 => runCalls c1 rest

/-- The call `f` made `n` times in a row. -/
def repeatCall (f : AnnotationContainer → Outcome) : Nat → AnnotationContainer → Outcome
  | 0, c => .ok c
  | n + 1, c => (f c).andThen (repeatCall f n)

/-- A call is one of `push_back`, `remove`, `modify` (the spec's add, remove, modify). -/
def Call.isEdit : Call → Bool
  | .push_back _ => true
  | .remove _ => true
  | .modify _ _ => true
  | _ => false

/-- The states the container can be in: the state after construction, and every state a
call leaves behind, whether it returned or threw (the caller may catch the exception
and go on). -/
inductive Reachable : AnnotationContainer → Prop where
  | init : Reachable init
  | returned {c c1 : AnnotationContainer} (call : Call) :
      Reachable c → step c call = .ok c1 → Reachable c1
  | threw {c c1 : AnnotationContainer} (call : Call) (e : Error) :
      Reachable c → step c call = .thrown e c1 → Reachable c1

/-! ## Specification-side notions -/

/-- The forward effect of one log entry in the spec's words: PUSH appends `item`, REMOVE
deletes position `idx`, MODIFY sets position `idx` to `item2`. -/
def replayEntry (items : List AnnotationItem) (op : AnnotationOp) : List AnnotationItem :=
  match op.opClass with
  | .PUSH => items ++ [op.item]
  | .REMOVE => items.eraseIdx op.idx.toNat
  | .MODIFY =>
    match op.item2 with
    | some item2 => items.set op.idx.toNat item2
    | none => items

/-- The log replayed from the empty sequence over its entries `0..cursor`. -/
def replay (log : List AnnotationOp) (cursor : Int) : List AnnotationItem :=
  (log.take (cursor + 1).toNat).foldl replayEntry []

/-- The entry `op` is a truthful record of a step from `before` to `after`: a PUSH of
`item`; a REMOVE at a valid `idx` of the item `item` that stood there; or a MODIFY at a
valid `idx` from `item`, which stood there, to `item2`. -/
def Records (op : AnnotationOp) (before after : List AnnotationItem) : Prop :=
  match op.opClass with
  | .PUSH => after = before ++ [op.item]
  | .REMOVE =>
    0 ≤ op.idx ∧ before[op.idx.toNat]? = some op.item ∧ after = before.eraseIdx op.idx.toNat
  | .MODIFY =>
    0 ≤ op.idx ∧ before[op.idx.toNat]? = some op.item ∧
      ∃ item2, op.item2 = some item2 ∧ after = before.set op.idx.toNat item2

/-- A run of log entries, each a truthful record, leading from `first` to `last`. -/
inductive Chain : List AnnotationItem → List AnnotationOp → List AnnotationItem → Prop where
  | nil (a : List AnnotationItem) : Chain a [] a
  | cons {a b c : List AnnotationItem} {op : AnnotationOp} {rest : List AnnotationOp} :
      Records op a b → Chain b rest c → Chain a (op :: rest) c

/-- The history invariant: the log splits at the cursor into the entries done (`past`)
and the entries undone (`future`); `past` leads from the empty list to `items`, and
`future` leads on from `items`. -/
def Consistent (c : AnnotationContainer) : Prop :=
  ∃ (past future : List AnnotationOp) (last : List AnnotationItem),
    c.ops = past ++ future ∧ c.curVersion = (past.length : Int) - 1 ∧
      Chain [] past c.items ∧ Chain c.items future last

/-- Every item the container holds or has logged: the current items, and `item` and
`item2` of every log entry. -/
def recorded (c : AnnotationContainer) : List AnnotationItem :=
  c.items ++ c.ops.flatMap fun op => op.item :: op.item2.toList

/-- The number `m` is the maximum id among the recorded items with label `label`, or
`-1` when there is none. -/
def IsMaxId (c : AnnotationContainer) (label : String) (m : Int) : Prop :=
  (∀ x ∈ recorded c, x.label = label → x.id ≤ m) ∧
    ((∃ x ∈ recorded c, x.label = label ∧ x.id = m) ∨
      ((∀ x ∈ recorded c, x.label ≠ label) ∧ m = -1))


/-! ## Sample items and sessions -/

/-- A rectangle labelled `cat` with instance id 0. -/
def catA : AnnotationItem := ⟨"cat", 0, [1, 2, 3, 4]⟩

/-- A rectangle labelled `cat` with instance id 1. -/
def catB : AnnotationItem := ⟨"cat", 1, [5, 6, 7, 8]⟩

/-- A rectangle labelled `dog` with instance id 0. -/
def dogA : AnnotationItem := ⟨"dog", 0, [2, 2, 9, 9]⟩

/-- The session add `catA`, add `dogA`, remove 0, modify 0 to `catB`. -/
def sessionEdits : List Call :=
  [.push_back catA, .push_back dogA, .remove 0, .modify 0 catB]

/-- The state the session `sessionEdits` ends in. -/
def afterEdits : AnnotationContainer :=
  { items := [catB],
    ops := [⟨.PUSH, 0, catA, none⟩, ⟨.PUSH, 0, dogA, none⟩, ⟨.REMOVE, 0, catA, none⟩,
      ⟨.MODIFY, 0, dogA, some catB⟩],
    curVersion := 3, selectedIdx := -1 }

/-- The session add `catA`, add `catB`, remove 0, undo, select 1 (the spec's example, then
a selection). -/
def sessionUndo : List Call :=
  [.push_back catA, .push_back catB, .remove 0, .undo, .setSelected 1]

/-- The state the session `sessionUndo` ends in. -/
def afterUndo : AnnotationContainer :=
  { items := [catA, catB],
    ops := [⟨.PUSH, 0, catA, none⟩, ⟨.PUSH, 0, catB, none⟩, ⟨.REMOVE, 0, catA, none⟩],
    curVersion := 1, selectedIdx := 1 }

/-- The spec's example session: add `catA`, add `catB`, remove 0, undo. -/
def sessionExample : List Call :=
  [.push_back catA, .push_back catB, .remove 0, .undo]

/-- The state after the first two calls of `sessionExample`. -/
def afterTwoAdds : AnnotationContainer :=
  { items := [catA, catB], ops := [⟨.PUSH, 0, catA, none⟩, ⟨.PUSH, 0, catB, none⟩],
    curVersion := 1, selectedIdx := -1 }

/-- The state the session `sessionExample` ends in. -/
def afterExample : AnnotationContainer :=
  { items := [catA, catB],
    ops := [⟨.PUSH, 0, catA, none⟩, ⟨.PUSH, 0, catB, none⟩, ⟨.REMOVE, 0, catA, none⟩],
    curVersion := 1, selectedIdx := -1 }

/-- The session add `catA`, undo, add `dogA`: the second add discards the undone entry. -/
def sessionReuse : List Call :=
  [.push_back catA, .undo, .push_back dogA]

/-- The state the session `sessionReuse` ends in. -/
def afterReuse : AnnotationContainer :=
  { items := [dogA], ops := [⟨.PUSH, 0, dogA, none⟩], curVersion := 0, selectedIdx := -1 }

/-- The state `afterUndo` after a further add of `dogA`, which replaces the undone
REMOVE entry. -/
def afterUndoThenAdd : AnnotationContainer :=
  { items := [catA, catB, dogA],
    ops := [⟨.PUSH, 0, catA, none⟩, ⟨.PUSH, 0, catB, none⟩, ⟨.PUSH, 0, dogA, none⟩],
    curVersion := 2, selectedIdx := 1 }

/-- Decoders that accept every object. -/
def sampleDecoders : ItemDecoders :=
  { rect := fun _ => .ok catA, seg := fun _ => .ok dogA }

/-- A JSON root without a field `annotations`. -/
def rootWithoutAnnotations : QJsonObject :=
  [("version", .string "1.0")]

/-- A JSON root whose field `annotations` is a string. -/
def rootNotArray : QJsonObject :=
  [("annotations", .string "none")]

/-- A JSON root whose field `annotations` is an array of one object. -/
def rootOneItem : QJsonObject :=
  [("annotations", .array [.object [("label", .string "cat"), ("id", .double 0)]])]

/-! ## Sessions with selection -/

/-- The argument of a `setSelected` call is `-1` or a valid index at the time of the call;
every other call passes. -/
def Call.selectArgValid (c : AnnotationContainer) : Call → Bool
  | .setSelected idx => decide (idx = -1 ∨ (0 ≤ idx ∧ idx < (c.items.length : Int)))
  | _ => true

/-- Every call is allowed. -/
def Call.any (_call : Call) : Bool := true

/-- The call is none of `remove`, `undo`, `redo`. -/
def Call.notRemoveUndoRedo : Call → Bool
  | .remove _ => false
  | .undo => false
  | .redo => false
  | _ => true

/-- A session from state `c`: every call is allowed by `allowed`, every `setSelected`
argument is `-1` or a valid index when the call is made, and the caller goes on after a
call that threw. The result is the state at the end; `none` when a call is not allowed or
is undefined. -/
def runSession (allowed : Call → Bool) (c : AnnotationContainer) :
    List Call → Option AnnotationContainer
  | [] => some c
  | call :: rest =>
    if allowed call && call.selectArgValid c then
      match step c call with
      | .ok c1 => runSession allowed c1 rest
      | .thrown _ c1 => runSession allowed c1 rest
      | .undefined => none
    else none

/-- The session add `catA`, select 0, remove 0. -/
def sessionSelectRemove : List Call :=
  [.push_back catA, .setSelected 0, .remove 0]

/-- The state the session `sessionSelectRemove` ends in: nothing is left to select. -/
def afterSelectRemove : AnnotationContainer :=
  { items := [], ops := [⟨.PUSH, 0, catA, none⟩, ⟨.REMOVE, 0, catA, none⟩],
    curVersion := 1, selectedIdx := 0 }

/-- The session add `catA`, select 0, undo. -/
def sessionSelectUndo : List Call :=
  [.push_back catA, .setSelected 0, .undo]

/-- The state the session `sessionSelectUndo` ends in. -/
def afterSelectUndo : AnnotationContainer :=
  { items := [], ops := [⟨.PUSH, 0, catA, none⟩], curVersion := -1, selectedIdx := 0 }

/-- The session add `catA`, add `catB`, remove 1, undo, select 1, redo. -/
def sessionSelectRedo : List Call :=
  [.push_back catA, .push_back catB, .remove 1, .undo, .setSelected 1, .redo]

/-- The state the session `sessionSelectRedo` ends in. -/
def afterSelectRedo : AnnotationContainer :=
  { items := [catA],
    ops := [⟨.PUSH, 0, catA, none⟩, ⟨.PUSH, 0, catB, none⟩, ⟨.REMOVE, 1, catB, none⟩],
    curVersion := 2, selectedIdx := 1 }

/-! ## More on JSON import -/

/-- The call `value.isObject()` of `QJsonValue`. -/
def QJsonValue.isObject : QJsonValue → Bool
  | .object _ => true
  | _ => false

/-- The log entry `AnnotationOp{PUSH, 0, item, nullptr}` that `push_back` builds. -/
def pushEntry (item : AnnotationItem) : AnnotationOp :=
  { opClass := .PUSH, idx := 0, item := item, item2 := none }

/-- A JSON object for a `dog` annotation, as in the spec's import example. -/
def dogObject : QJsonObject :=
  [("label", .string "dog"), ("id", .double 0)]

/-- Decoders that read every object as `dogA`. -/
def dogDecoders : ItemDecoders :=
  { rect := fun _ => .ok dogA, seg := fun _ => .ok dogA }

/-- The state `afterUndo` after importing the one object `dogObject`. -/
def afterImport : AnnotationContainer :=
  { items := [catA, catB, dogA],
    ops := [⟨.PUSH, 0, catA, none⟩, ⟨.PUSH, 0, catB, none⟩, ⟨.PUSH, 0, dogA, none⟩],
    curVersion := 2, selectedIdx := 1 }

/-! ## The canvas: pending points of a new rectangle

A shallow embedding of the mouse handlers of `src/canvas.cpp` (class `Canvas`). -/

/-- A `QPoint`: integer coordinates. -/
structure QPoint where
  x : Int
  y : Int
deriving DecidableEq, Repr

/-- A `QRect` by its four edges, as `setTop`, `setBottom`, `setLeft` and `setRight`
address them. -/
structure QRect where
  left : Int
  top : Int
  right : Int
  bottom : Int
deriving DecidableEq, Repr

/-- Modelled from the spec: the enumeration `TaskMode` of `canvas.h`, which is not among
the sources; the handlers test for `DETECTION` only. -/
inductive TaskMode where
  | DETECTION
  | otherTask
deriving DecidableEq, Repr

/-- Modelled from the spec: the enumeration `CanvasMode` of `canvas.h`; the handlers test
for `DRAW` and `EDIT`. -/
inductive CanvasMode where
  | DRAW
  | EDIT
  | otherMode
deriving DecidableEq, Repr

/-- Modelled from the spec: the enumeration `CreateMode` of `canvas.h`; the handlers test
for `RECTANGLE` only. -/
inductive CreateMode where
  | RECTANGLE
  | otherShape
deriving DecidableEq, Repr

/-- Modelled from the spec: the enumeration behind `editingRectEdge` in `canvas.h`, with
the four cases of the `switch` in `mouseMoveEvent`. -/
inductive EditingRectEdge where
  | TOP
  | BOTTOM
  | LEFT
  | RIGHT
deriving DecidableEq, Repr

/-- The value of `event->button()`: `Qt::LeftButton`, `Qt::RightButton`, or another. -/
inductive MouseButton where
  | LeftButton
  | RightButton
  | otherButton
deriving DecidableEq, Repr

/-- What the handlers read of a `QMouseEvent`. -/
structure QMouseEvent where
  pos : QPoint
  button : MouseButton
deriving DecidableEq, Repr

/-- Modelled from the spec: the member variables of `Canvas` (declared in `canvas.h`) that
the mouse handlers read or write; of `pixmap` only `isNull()`, `width()` and `height()`
are read. -/
structure Canvas where
  pixmapIsNull : Bool
  pixmapWidth : Int
  pixmapHeight : Int
  curPoints : List QPoint
  task : TaskMode
  mode : CanvasMode
  createMode : CreateMode
  editing : Bool
  editingRect : QRect
  editingRectEdge : EditingRectEdge
deriving DecidableEq, Repr

/-- What a mouse handler takes from outside the modelled state at the time of one event:
`pixelPos` is the member `Canvas::pixelPos`, whose value `pos / scale - offsetToCenter()`
is floating-point arithmetic on the scale and the widget size; `selectedRect` is
`(*pRectAnno)[pRectAnno->getSelectedIdx()].rect`, `none` when that access fails; the four
predicates are `onRectTop`, `onRectBottom`, `onRectLeft`, `onRectRight` of `utils.h`. -/
structure CanvasEnv where
  pixelPos : QPoint → QPoint
  selectedRect : Option QRect
  onRectTop : QPoint → QRect → Bool
  onRectBottom : QPoint → QRect → Bool
  onRectLeft : QPoint → QRect → Bool
  onRectRight : QPoint → QRect → Bool

/-- How a mouse handler ends. -/
inductive CanvasOutcome where
  /-- The handler returned; the canvas is in state `c`. -/
  | ok (c : Canvas)
  /-- The handler reached `throw "Anomaly length of curPoints of new rectangle"` in
  state `c`. -/
  | anomaly (c : Canvas)
  /-- The access to the selected annotation failed. -/
  | accessFailed
deriving DecidableEq, Repr

/-- The member `boundedPixelPos`: `pixelPos` clamped into the pixmap. -/
def boundedPixelPos (env : CanvasEnv) (c : Canvas) (pos : QPoint) : QPoint :=
  let p := env.pixelPos pos
  { x := min (max p.x 0) (c.pixmapWidth - 1), y := min (max p.y 0) (c.pixmapHeight - 1) }

/-- The member `outOfPixmap`. -/
def outOfPixmap (c : Canvas) (pos : QPoint) : Bool :=
  !(decide (0 ≤ pos.x) && decide (pos.x < c.pixmapWidth) && decide (0 ≤ pos.y) &&
    decide (pos.y < c.pixmapHeight))

/-- The member `mousePressEvent`. The signals `mouseMoved`, `newRectangleAnnotated` and
`removeRectRequest`, the calls `update()` and `selectShape`, and the base-class handler
leave the modelled state as it is. On a left press with two pending points the second
point is overwritten, the rectangle is sent off with `newRectangleAnnotated`, and
`curPoints.clear()` follows: the handler returns with the empty list. -/
def mousePressEvent (env : CanvasEnv) (c : Canvas) (event : QMouseEvent) : CanvasOutcome :=
  if c.pixmapIsNull then .ok c
  else
    let pixPos := env.pixelPos event.pos
    match c.task with
    | .DETECTION =>
      match c.mode with
      | .DRAW =>
        match c.createMode with
        | .RECTANGLE =>
          match event.button with
          | .LeftButton =>
            if c.curPoints.length = 0 then
              if !outOfPixmap c pixPos then
                .ok { c with curPoints := (c.curPoints ++ [pixPos]) ++ [pixPos] }
              else .ok c
            else if c.curPoints.length = 2 then
              .ok { c with curPoints := [] }
            else .anomaly c
          | .RightButton =>
            if c.curPoints.length = 0 then .ok c
            else if c.curPoints.length = 2 then .ok { c with curPoints := [] }
            else .anomaly c
          | .otherButton => .ok c
        | .otherShape => .ok c
      | .EDIT =>
        match event.button with
        | .LeftButton =>
          match env.selectedRect with
          | none => .accessFailed
          | some selectedRect =>
            if env.onRectTop pixPos selectedRect then
              .ok { c with editing := true, editingRect := selectedRect, editingRectEdge := .TOP }
            else if env.onRectBottom pixPos selectedRect then
              .ok { c with editing := true, editingRect := selectedRect,
                           editingRectEdge := .BOTTOM }
            else if env.onRectLeft pixPos selectedRect then
              .ok { c with editing := true, editingRect := selectedRect, editingRectEdge := .LEFT }
            else if env.onRectRight pixPos selectedRect then
              .ok { c with editing := true, editingRect := selectedRect,
                           editingRectEdge := .RIGHT }
            else .ok c
        | _ => .ok c
      | .otherMode => .ok c
    | .otherTask => .ok c

/-- The member `mouseMoveEvent`. -/
def mouseMoveEvent (env : CanvasEnv) (c : Canvas) (event : QMouseEvent) : CanvasOutcome :=
  if c.pixmapIsNull then .ok c
  else
    let pixPos := boundedPixelPos env c event.pos
    match c.task with
    | .DETECTION =>
      match c.mode with
      | .DRAW =>
        match c.createMode with
        | .RECTANGLE =>
          if c.curPoints.length = 2 then .ok { c with curPoints := c.curPoints.set 1 pixPos }
          else if c.curPoints.length ≠ 0 then .anomaly c
          else .ok c
        | .otherShape => .ok c
      | .EDIT =>
        if c.editing then
          match c.editingRectEdge with
          | .TOP => .ok { c with editingRect := { c.editingRect with top := pixPos.y } }
          | .BOTTOM => .ok { c with editingRect := { c.editingRect with bottom := pixPos.y } }
          | .LEFT => .ok { c with editingRect := { c.editingRect with left := pixPos.x } }
          | .RIGHT => .ok { c with editingRect := { c.editingRect with right := pixPos.x } }
        else .ok c
      | .otherMode => .ok c
    | .otherTask => .ok c

/-- A mouse-press or a mouse-move event delivered to the canvas. -/
inductive MouseCall where
  | press (event : QMouseEvent)
  | move (event : QMouseEvent)
deriving DecidableEq, Repr

/-- The handler an event is dispatched to. -/
def handle (env : CanvasEnv) (c : Canvas) : MouseCall → CanvasOutcome
  | .press event => mousePressEvent env c event
  | .move event => mouseMoveEvent env c event

/-- A sequence of events, each delivered with the surroundings of its time; an event is
delivered only after the one before has returned. -/
def runEvents (c : Canvas) : List (CanvasEnv × MouseCall) → CanvasOutcome
  | [] => .ok c
  | (env, call) :: rest =>
    match handle env c call with
    | .ok c1 => runEvents c1 rest
    | .anomaly c1 => .anomaly c1
    | .accessFailed => .accessFailed

/-- Surroundings with scale 1 and no offset: `pixelPos` is the identity. -/
def plainEnv : CanvasEnv :=
  { pixelPos := fun pos => pos, selectedRect := none,
    onRectTop := fun _ _ => false, onRectBottom := fun _ _ => false,
    onRectLeft := fun _ _ => false, onRectRight := fun _ _ => false }

/-- A canvas with a 100 by 80 pixmap, drawing rectangles, with no pending point. -/
def drawingCanvas : Canvas :=
  { pixmapIsNull := false, pixmapWidth := 100, pixmapHeight := 80, curPoints := [],
    task := .DETECTION, mode := .DRAW, createMode := .RECTANGLE,
    editing := false, editingRect := ⟨0, 0, 0, 0⟩, editingRectEdge := .TOP }

/-- A left press at (10, 10), a move to (300, 40), a right press, and a left press at
(20, 20). -/
def sampleEvents : List (CanvasEnv × MouseCall) :=
  [(plainEnv, .press ⟨⟨10, 10⟩, .LeftButton⟩), (plainEnv, .move ⟨⟨300, 40⟩, .otherButton⟩),
    (plainEnv, .press ⟨⟨0, 0⟩, .RightButton⟩), (plainEnv, .press ⟨⟨20, 20⟩, .LeftButton⟩)]

/-! ## Sessions that go on after a throw; discarded log entries -/

/-- A session from state `c` in which the caller goes on after a call that threw; `none`
when a call is undefined. -/
def runCatching (c : AnnotationContainer) : List Call → Option AnnotationContainer
  | [] => some c
  | call :: rest =>
    match step c call with
    | .ok c1 => runCatching c1 rest
    | .thrown _ c1 => runCatching c1 rest
    | .undefined => none

/-- The session from state `c` discards the log entry at position `i`: one of its add,
remove or modify calls returns from a state whose cursor is below `i`, so that the loop
of `pushBackOp` pops the entry at position `i`. -/
def discards (i : Int) (c : AnnotationContainer) : List Call → Bool
  | [] => false
  | call :: rest =>
    match step c call with
    | .ok c1 => (call.isEdit && decide (c.curVersion < i)) || discards i c1 rest
    | .thrown _ c1 => discards i c1 rest
    | .undefined => false

/-- The rest of a session after add `catA`: add `dogA`, remove 0 (which removes `catA`), a
modify that throws, and three undos, the last of which undoes the add of `catA`. -/
def sessionAllUndone : List Call :=
  [.push_back dogA, .remove 0, .modify 7 catB, .undo, .undo, .undo]

/-- The state after add `catA`. -/
def afterAddCat : AnnotationContainer :=
  { items := [catA], ops := [⟨.PUSH, 0, catA, none⟩], curVersion := 0, selectedIdx := -1 }

/-- The state add `catA` followed by `sessionAllUndone` ends in: no items, every entry
undone and still in the log. -/
def afterAllUndone : AnnotationContainer :=
  { items := [],
    ops := [⟨.PUSH, 0, catA, none⟩, ⟨.PUSH, 0, dogA, none⟩, ⟨.REMOVE, 0, catA, none⟩],
    curVersion := -1, selectedIdx := -1 }

/-- The session add `catA`, add `catB`, remove 0, select 0: a remove before the select. -/
def sessionRemoveSelect : List Call :=
  [.push_back catA, .push_back catB, .remove 0, .setSelected 0]

/-- The state the session `sessionRemoveSelect` ends in. -/
def afterRemoveSelect : AnnotationContainer :=
  { items := [catB],
    ops := [⟨.PUSH, 0, catA, none⟩, ⟨.PUSH, 0, catB, none⟩, ⟨.REMOVE, 0, catA, none⟩],
    curVersion := 2, selectedIdx := 0 }

/-- Calls after `sessionRemoveSelect`: add `dogA`, modify 0 to `catA`. -/
def sessionAddModify : List Call :=
  [.push_back dogA, .modify 0 catA]

/-- The state `sessionRemoveSelect` followed by `sessionAddModify` ends in. -/
def afterAddModify : AnnotationContainer :=
  { items := [catA, dogA],
    ops := [⟨.PUSH, 0, catA, none⟩, ⟨.PUSH, 0, catB, none⟩, ⟨.REMOVE, 0, catA, none⟩,
      ⟨.PUSH, 0, dogA, none⟩, ⟨.MODIFY, 0, catB, some catA⟩],
    curVersion := 4, selectedIdx := 0 }

/-! # Theorems -/

/-! ## Lists and the Qt primitives -/

theorem getAt_append_length {α : Type} (p : List α) (x : α) (f : List α) :
    getAt (p ++ x :: f) (p.length : Int) = some x := by
  unfold getAt
  rw [if_pos (by omega), Int.toNat_ofNat]
  exact List.getElem?_append_right (Nat.le_refl _) |>.trans (by simp)

theorem getAt_eq_some_iff {α : Type} (l : List α) (i : Int) (x : α) :
    getAt l i = some x ↔ 0 ≤ i ∧ l[i.toNat]? = some x := by
  unfold getAt
  split <;> simp [*]

theorem getAt_isSome_of_range {α : Type} (l : List α) (i : Int)
    (h0 : 0 ≤ i) (h1 : i < (l.length : Int)) : ∃ x, getAt l i = some x := by
  have hlt : i.toNat < l.length := by omega
  exact ⟨l[i.toNat], by simp [getAt, h0, List.getElem?_eq_getElem hlt]⟩

theorem getAt_range {α : Type} (l : List α) (i : Int) (x : α) (h : getAt l i = some x) :
    0 ≤ i ∧ i < (l.length : Int) := by
  rw [getAt_eq_some_iff] at h
  obtain ⟨h0, h1⟩ := h
  have := (List.getElem?_eq_some_iff.mp h1).1
  omega

theorem popStale_append (p : List AnnotationOp) :
    ∀ fr : List AnnotationOp, popStale ((p.length : Int) - 1) (fr ++ p) = some p := by
  intro fr
  induction fr with
  | nil =>
    cases p with
    | nil => simp [popStale]
    | cons top below => simp [popStale]
  | cons top fr ih =>
    have hne : (p.length : Int) - 1 ≠ (((fr ++ p).length + 1 : Nat) : Int) - 1 := by
      simp only [List.length_append]; omega
    show (if (p.length : Int) - 1 ≠ (((fr ++ p).length + 1 : Nat) : Int) - 1
      then popStale ((p.length : Int) - 1) (fr ++ p) else some (top :: (fr ++ p))) = some p
    rw [if_pos hne]
    exact ih


theorem take_insert_drop_eraseIdx {α : Type} (x : α) :
    ∀ (a : List α) (i : Nat), a[i]? = some x →
      (a.eraseIdx i).take i ++ x :: (a.eraseIdx i).drop i = a := by
  intro a
  induction a with
  | nil => intro i h; simp at h
  | cons y a ih =>
    intro i h
    cases i with
    | zero =>
      simp only [List.getElem?_cons_zero, Option.some.injEq] at h
      simp [h]
    | succ i =>
      simp only [List.getElem?_cons_succ] at h
      simp [ih i h]

theorem set_set_back {α : Type} (x y : α) :
    ∀ (a : List α) (i : Nat), a[i]? = some x → (a.set i y).set i x = a := by
  intro a
  induction a with
  | nil => intro i h; simp at h
  | cons z a ih =>
    intro i h
    cases i with
    | zero =>
      simp only [List.getElem?_cons_zero, Option.some.injEq] at h
      simp [h]
    | succ i =>
      simp only [List.getElem?_cons_succ] at h
      simp [ih i h]

theorem lt_length_of_getElem? {α : Type} {a : List α} {i : Nat} {x : α}
    (h : a[i]? = some x) : i < a.length :=
  (List.getElem?_eq_some_iff.mp h).1

/-! ## Chains of log entries -/

theorem Records.replayEntry_eq {op : AnnotationOp} {a b : List AnnotationItem}
    (h : Records op a b) : replayEntry a op = b := by
  unfold Records at h
  unfold replayEntry
  cases hk : op.opClass <;> simp only [hk] at h ⊢
  · exact h.symm
  · exact h.2.2.symm
  · obtain ⟨_, _, item2, h2, h3⟩ := h
    simp [h2, h3]

theorem Chain.foldl_replayEntry {a c : List AnnotationItem} {l : List AnnotationOp}
    (h : Chain a l c) : l.foldl replayEntry a = c := by
  induction h with
  | nil a => rfl
  | cons hr _ ih => simpa [List.foldl_cons, hr.replayEntry_eq] using ih

theorem Chain.append {a b c : List AnnotationItem} {l1 l2 : List AnnotationOp}
    (h1 : Chain a l1 b) (h2 : Chain b l2 c) : Chain a (l1 ++ l2) c := by
  induction h1 with
  | nil a => simpa using h2
  | cons hr _ ih => exact Chain.cons hr (ih h2)

theorem Chain.split {l1 l2 : List AnnotationOp} :
    ∀ {a c : List AnnotationItem}, Chain a (l1 ++ l2) c → ∃ b, Chain a l1 b ∧ Chain b l2 c := by
  induction l1 with
  | nil => intro a c h; exact ⟨a, Chain.nil a, by simpa using h⟩
  | cons op l1 ih =>
    intro a c h
    cases h with
    | cons hr hrest =>
      obtain ⟨b, hb1, hb2⟩ := ih hrest
      exact ⟨b, Chain.cons hr hb1, hb2⟩

theorem Chain.single {op : AnnotationOp} {a b : List AnnotationItem} (h : Records op a b) :
    Chain a [op] b :=
  Chain.cons h (Chain.nil b)

theorem Chain.single_inv {op : AnnotationOp} {a b : List AnnotationItem}
    (h : Chain a [op] b) : Records op a b := by
  cases h with
  | cons hr hrest => cases hrest; exact hr

theorem Chain.snoc_inv {l : List AnnotationOp} {op : AnnotationOp} {a c : List AnnotationItem}
    (h : Chain a (l ++ [op]) c) : ∃ b, Chain a l b ∧ Records op b c := by
  obtain ⟨b, h1, h2⟩ := Chain.split h
  exact ⟨b, h1, h2.single_inv⟩

theorem Chain.head_inv {l : List AnnotationOp} {op : AnnotationOp} {a c : List AnnotationItem}
    (h : Chain a (op :: l) c) : ∃ b, Records op a b ∧ Chain b l c := by
  cases h with
  | cons hr hrest => exact ⟨_, hr, hrest⟩

/-! ## The members on a log split at the cursor -/

theorem pushBackOp_eq (c : AnnotationContainer) (op : AnnotationOp)
    (past future : List AnnotationOp) (hops : c.ops = past ++ future)
    (hcur : c.curVersion = (past.length : Int) - 1) :
    pushBackOp c op = .ok { c with ops := past ++ [op], curVersion := (past.length : Int) } := by
  unfold pushBackOp
  have h := popStale_append past.reverse future.reverse
  rw [List.length_reverse, ← List.reverse_append, ← hops, ← hcur] at h
  rw [h]
  simp [hcur]

theorem undo_eq (c : AnnotationContainer) (p f : List AnnotationOp) (op : AnnotationOp)
    (a : List AnnotationItem) (hops : c.ops = p ++ op :: f)
    (hcur : c.curVersion = (p.length : Int)) (hrec : Records op a c.items) :
    undo c = .ok { c with curVersion := c.curVersion - 1, items := a } := by
  unfold undo
  have hne : c.curVersion ≠ -1 := by omega
  rw [if_neg hne, hops, hcur, getAt_append_length]
  unfold Records at hrec
  cases hk : op.opClass <;> simp only [hk] at hrec ⊢
  · simp [hrec]
  · obtain ⟨h0, hget, hitems⟩ := hrec
    have hlt := lt_length_of_getElem? hget
    have hlen : op.idx ≤ (c.items.length : Int) := by
      rw [hitems, List.length_eraseIdx, if_pos hlt]; omega
    rw [if_pos ⟨h0, hlen⟩, hitems, take_insert_drop_eraseIdx op.item a _ hget]
  · obtain ⟨h0, hget, item2, _, hitems⟩ := hrec
    have hlt := lt_length_of_getElem? hget
    have hin : op.idx < (c.items.length : Int) := by
      rw [hitems, List.length_set]; omega
    obtain ⟨x, hx⟩ := getAt_isSome_of_range c.items op.idx h0 hin
    simp only [hx]
    rw [hitems, set_set_back op.item item2 a _ hget]

theorem redo_eq (c : AnnotationContainer) (p f : List AnnotationOp) (op : AnnotationOp)
    (b : List AnnotationItem) (hops : c.ops = p ++ op :: f)
    (hcur : c.curVersion = (p.length : Int) - 1) (hrec : Records op c.items b) :
    redo c = .ok { c with curVersion := c.curVersion + 1, items := b } := by
  unfold redo
  have hne : c.curVersion ≠ (c.ops.length : Int) - 1 := by
    rw [hops, List.length_append, List.length_cons]; omega
  have hidx : c.curVersion + 1 = (p.length : Int) := by omega
  rw [if_neg hne, hidx, hops, getAt_append_length]
  unfold Records at hrec
  cases hk : op.opClass <;> simp only [hk] at hrec ⊢
  · simp [hrec]
  · obtain ⟨h0, hget, hitems⟩ := hrec
    have hlt := lt_length_of_getElem? hget
    obtain ⟨x, hx⟩ := getAt_isSome_of_range c.items op.idx h0 (by omega)
    simp only [hx, hitems]
  · obtain ⟨h0, hget, item2, h2, hitems⟩ := hrec
    have hlt := lt_length_of_getElem? hget
    obtain ⟨x, hx⟩ := getAt_isSome_of_range c.items op.idx h0 (by omega)
    simp only [hx, h2, hitems]


theorem Outcome.andThen_assoc (o : Outcome) (f g : AnnotationContainer → Outcome) :
    (o.andThen f).andThen g = o.andThen fun c => (f c).andThen g := by
  cases o <;> rfl

theorem repeatCall_succ_last (f : AnnotationContainer → Outcome) :
    ∀ (n : Nat) (c : AnnotationContainer),
      repeatCall f (n + 1) c = (repeatCall f n c).andThen f := by
  intro n
  induction n with
  | zero => intro c; cases h : f c <;> simp [repeatCall, Outcome.andThen, h]
  | succ n ih =>
    intro c
    show (f c).andThen (repeatCall f (n + 1)) = ((f c).andThen (repeatCall f n)).andThen f
    rw [Outcome.andThen_assoc]
    congr 1
    funext c1
    exact ih c1

/-! ## The history invariant -/

theorem Consistent.cursor_range {c : AnnotationContainer} (h : Consistent c) :
    -1 ≤ c.curVersion ∧ c.curVersion ≤ (c.ops.length : Int) - 1 := by
  obtain ⟨past, future, last, hops, hcur, _, _⟩ := h
  rw [hops, List.length_append]
  omega

theorem consistent_init : Consistent init :=
  ⟨[], [], [], rfl, rfl, Chain.nil [], Chain.nil []⟩

theorem undo_of_consistent {c : AnnotationContainer} (h : Consistent c)
    (hne : c.curVersion ≠ -1) :
    ∃ c1, undo c = .ok c1 ∧ Consistent c1 ∧ c1.curVersion = c.curVersion - 1 ∧
      c1.ops = c.ops ∧ c1.selectedIdx = c.selectedIdx ∧ redo c1 = .ok c := by
  obtain ⟨past, future, last, hops, hcur, hpast, hfut⟩ := h
  rcases List.eq_nil_or_concat past with hnil | ⟨p, op, hp⟩
  · subst hnil; simp at hcur; omega
  · rw [List.concat_eq_append] at hp
    subst hp
    obtain ⟨a, ha, hrec⟩ := Chain.snoc_inv hpast
    have hops1 : c.ops = p ++ op :: future := by simp [hops]
    have hcur1 : c.curVersion = (p.length : Int) := by
      rw [hcur, List.length_append]; simp
    refine ⟨_, undo_eq c p future op a hops1 hcur1 hrec, ?_, rfl, rfl, rfl, ?_⟩
    · exact ⟨p, op :: future, last, hops1, by simp [hcur1], ha, Chain.cons hrec hfut⟩
    · have := redo_eq { c with curVersion := c.curVersion - 1, items := a } p future op c.items
        hops1 (by simp [hcur1]) hrec
      rw [this]
      cases c
      simp

theorem redo_of_consistent {c : AnnotationContainer} (h : Consistent c)
    (hne : c.curVersion ≠ (c.ops.length : Int) - 1) :
    ∃ c1, redo c = .ok c1 ∧ Consistent c1 ∧ c1.curVersion = c.curVersion + 1 ∧
      c1.ops = c.ops ∧ c1.selectedIdx = c.selectedIdx ∧ undo c1 = .ok c := by
  obtain ⟨past, future, last, hops, hcur, hpast, hfut⟩ := h
  cases future with
  | nil => rw [hops] at hne; simp at hne; omega
  | cons op f =>
    obtain ⟨b, hrec, hb⟩ := Chain.head_inv hfut
    refine ⟨_, redo_eq c past f op b hops hcur hrec, ?_, rfl, rfl, rfl, ?_⟩
    · refine ⟨past ++ [op], f, last, by simp [hops], ?_, hpast.append (Chain.single hrec), hb⟩
      simp [hcur]
    · have := undo_eq { c with curVersion := c.curVersion + 1, items := b } past f op c.items
        hops (by simp [hcur]) hrec
      rw [this]
      cases c
      simp

theorem undo_at_first (c : AnnotationContainer) (h : c.curVersion = -1) : undo c = .ok c := by
  simp [undo, h]

theorem redo_at_last (c : AnnotationContainer) (h : c.curVersion = (c.ops.length : Int) - 1) :
    redo c = .ok c := by
  simp [undo, redo, h]

theorem push_back_eq (c : AnnotationContainer) (item : AnnotationItem)
    (past future : List AnnotationOp) (hops : c.ops = past ++ future)
    (hcur : c.curVersion = (past.length : Int) - 1) :
    push_back c item = .ok
      { items := c.items ++ [item],
        ops := past ++ [{ opClass := .PUSH, idx := 0, item := item, item2 := none }],
        curVersion := (past.length : Int), selectedIdx := c.selectedIdx } := by
  unfold push_back
  rw [pushBackOp_eq c _ past future hops hcur]
  rfl

theorem remove_eq (c : AnnotationContainer) (idx : Int) (old : AnnotationItem)
    (past future : List AnnotationOp) (hops : c.ops = past ++ future)
    (hcur : c.curVersion = (past.length : Int) - 1) (hold : getAt c.items idx = some old) :
    remove c idx = .ok
      { items := c.items.eraseIdx idx.toNat,
        ops := past ++ [{ opClass := .REMOVE, idx := idx, item := old, item2 := none }],
        curVersion := (past.length : Int), selectedIdx := c.selectedIdx } := by
  unfold remove
  have hr := getAt_range _ _ _ hold
  have hchk : checkIdx c idx = .ok () := by
    unfold checkIdx
    rw [if_neg (by simp [hr.1, hr.2])]
  rw [hchk]
  simp only [hold]
  rw [pushBackOp_eq c _ past future hops hcur]
  rfl

theorem modify_eq (c : AnnotationContainer) (idx : Int) (item old : AnnotationItem)
    (past future : List AnnotationOp) (hops : c.ops = past ++ future)
    (hcur : c.curVersion = (past.length : Int) - 1) (hold : getAt c.items idx = some old) :
    modify c idx item = .ok
      { items := c.items.set idx.toNat item,
        ops := past ++ [{ opClass := .MODIFY, idx := idx, item := old, item2 := some item }],
        curVersion := (past.length : Int), selectedIdx := c.selectedIdx } := by
  unfold modify
  have hr := getAt_range _ _ _ hold
  have hchk : checkIdx c idx = .ok () := by
    unfold checkIdx
    rw [if_neg (by simp [hr.1, hr.2])]
  rw [hchk]
  simp only [hold]
  rw [pushBackOp_eq c _ past future hops hcur]
  rfl

theorem remove_out_of_range (c : AnnotationContainer) (idx : Int)
    (h : ¬ (0 ≤ idx ∧ idx < (c.items.length : Int))) : remove c idx = .thrown .idxOutOfRange c := by
  unfold remove checkIdx
  rw [if_pos (by simpa using h)]

theorem modify_out_of_range (c : AnnotationContainer) (idx : Int) (item : AnnotationItem)
    (h : ¬ (0 ≤ idx ∧ idx < (c.items.length : Int))) :
    modify c idx item = .thrown .idxOutOfRange c := by
  unfold modify checkIdx
  rw [if_pos (by simpa using h)]


/-! ## Calls preserve the invariant -/

theorem edit_ok_spec {c c1 : AnnotationContainer} {call : Call} (h : Consistent c)
    (hedit : call.isEdit = true) (hok : step c call = .ok c1) :
    ∃ (past future : List AnnotationOp) (entry : AnnotationOp),
      c.ops = past ++ future ∧ c.curVersion = (past.length : Int) - 1 ∧
        c1.ops = past ++ [entry] ∧ c1.curVersion = (past.length : Int) ∧
        c1.selectedIdx = c.selectedIdx ∧ Records entry c.items c1.items ∧ Consistent c1 := by
  obtain ⟨past, future, last, hops, hcur, hpast, hfut⟩ := h
  cases call with
  | push_back item =>
    simp only [step, push_back_eq c item past future hops hcur, Outcome.ok.injEq] at hok
    subst hok
    have hrec : Records { opClass := .PUSH, idx := 0, item := item, item2 := none } c.items
        (c.items ++ [item]) := rfl
    exact ⟨past, future, _, hops, hcur, rfl, rfl, rfl, hrec,
      past ++ [_], [], _, by simp, by simp, hpast.append (Chain.single hrec), Chain.nil _⟩
  | remove idx =>
    by_cases hin : 0 ≤ idx ∧ idx < (c.items.length : Int)
    · obtain ⟨old, hold⟩ := getAt_isSome_of_range c.items idx hin.1 hin.2
      simp only [step, remove_eq c idx old past future hops hcur hold, Outcome.ok.injEq] at hok
      subst hok
      have hrec : Records { opClass := .REMOVE, idx := idx, item := old, item2 := none } c.items
          (c.items.eraseIdx idx.toNat) :=
        ⟨hin.1, ((getAt_eq_some_iff _ _ _).mp hold).2, rfl⟩
      exact ⟨past, future, _, hops, hcur, rfl, rfl, rfl, hrec,
        past ++ [_], [], _, by simp, by simp, hpast.append (Chain.single hrec), Chain.nil _⟩
    · simp [step, remove_out_of_range c idx hin] at hok
  | modify idx item =>
    by_cases hin : 0 ≤ idx ∧ idx < (c.items.length : Int)
    · obtain ⟨old, hold⟩ := getAt_isSome_of_range c.items idx hin.1 hin.2
      simp only [step, modify_eq c idx item old past future hops hcur hold,
        Outcome.ok.injEq] at hok
      subst hok
      have hrec : Records { opClass := .MODIFY, idx := idx, item := old, item2 := some item }
          c.items (c.items.set idx.toNat item) :=
        ⟨hin.1, ((getAt_eq_some_iff _ _ _).mp hold).2, item, rfl, rfl⟩
      exact ⟨past, future, _, hops, hcur, rfl, rfl, rfl, hrec,
        past ++ [_], [], _, by simp, by simp, hpast.append (Chain.single hrec), Chain.nil _⟩
    · simp [step, modify_out_of_range c idx item hin] at hok
  | undo => simp [Call.isEdit] at hedit
  | redo => simp [Call.isEdit] at hedit
  | setSelected idx => simp [Call.isEdit] at hedit
  | allClear => simp [Call.isEdit] at hedit

theorem step_ok_consistent {c c1 : AnnotationContainer} {call : Call} (h : Consistent c)
    (hok : step c call = .ok c1) : Consistent c1 := by
  cases hcall : call.isEdit with
  | true =>
    obtain ⟨_, _, _, _, _, _, _, _, _, hc⟩ := edit_ok_spec h hcall hok
    exact hc
  | false =>
    cases call with
    | push_back item => simp [Call.isEdit] at hcall
    | remove idx => simp [Call.isEdit] at hcall
    | modify idx item => simp [Call.isEdit] at hcall
    | undo =>
      by_cases hne : c.curVersion = -1
      · simp only [step, undo_at_first c hne, Outcome.ok.injEq] at hok
        exact hok ▸ h
      · obtain ⟨c2, h2, hc2, _⟩ := undo_of_consistent h hne
        simp only [step, h2, Outcome.ok.injEq] at hok
        exact hok ▸ hc2
    | redo =>
      by_cases hne : c.curVersion = (c.ops.length : Int) - 1
      · simp only [step, redo_at_last c hne, Outcome.ok.injEq] at hok
        exact hok ▸ h
      · obtain ⟨c2, h2, hc2, _⟩ := redo_of_consistent h hne
        simp only [step, h2, Outcome.ok.injEq] at hok
        exact hok ▸ hc2
    | setSelected idx =>
      simp only [step, setSelected, Outcome.ok.injEq] at hok
      subst hok
      exact h
    | allClear =>
      simp only [step, allClear, Outcome.ok.injEq] at hok
      subst hok
      exact consistent_init

theorem step_thrown_consistent {c c1 : AnnotationContainer} {call : Call} {e : Error}
    (h : Consistent c) (hthrown : step c call = .thrown e c1) :
    c1 = c ∧ e = .idxOutOfRange := by
  obtain ⟨past, future, last, hops, hcur, hpast, hfut⟩ := h
  cases call with
  | push_back item => simp [step, push_back_eq c item past future hops hcur] at hthrown
  | remove idx =>
    by_cases hin : 0 ≤ idx ∧ idx < (c.items.length : Int)
    · obtain ⟨old, hold⟩ := getAt_isSome_of_range c.items idx hin.1 hin.2
      simp [step, remove_eq c idx old past future hops hcur hold] at hthrown
    · simp only [step, remove_out_of_range c idx hin, Outcome.thrown.injEq] at hthrown
      exact ⟨hthrown.2.symm, hthrown.1.symm⟩
  | modify idx item =>
    by_cases hin : 0 ≤ idx ∧ idx < (c.items.length : Int)
    · obtain ⟨old, hold⟩ := getAt_isSome_of_range c.items idx hin.1 hin.2
      simp [step, modify_eq c idx item old past future hops hcur hold] at hthrown
    · simp only [step, modify_out_of_range c idx item hin, Outcome.thrown.injEq] at hthrown
      exact ⟨hthrown.2.symm, hthrown.1.symm⟩
  | undo =>
    have hc : Consistent c := ⟨past, future, last, hops, hcur, hpast, hfut⟩
    by_cases hne : c.curVersion = -1
    · simp [step, undo_at_first c hne] at hthrown
    · obtain ⟨c2, h2, _⟩ := undo_of_consistent hc hne
      simp [step, h2] at hthrown
  | redo =>
    have hc : Consistent c := ⟨past, future, last, hops, hcur, hpast, hfut⟩
    by_cases hne : c.curVersion = (c.ops.length : Int) - 1
    · simp [step, redo_at_last c hne] at hthrown
    · obtain ⟨c2, h2, _⟩ := redo_of_consistent hc hne
      simp [step, h2] at hthrown
  | setSelected idx => simp [step, setSelected] at hthrown
  | allClear => simp [step, allClear] at hthrown

theorem Reachable.consistent {c : AnnotationContainer} (h : Reachable c) : Consistent c := by
  induction h with
  | init => exact consistent_init
  | returned call _ hok ih => exact step_ok_consistent ih hok
  | threw call e _ hthrown ih => exact (step_thrown_consistent ih hthrown).1 ▸ ih

theorem Consistent.items_eq_replay {c : AnnotationContainer} (h : Consistent c) :
    c.items = replay c.ops c.curVersion := by
  obtain ⟨past, future, last, hops, hcur, hpast, _⟩ := h
  unfold replay
  have hn : (c.curVersion + 1).toNat = past.length := by omega
  rw [hn, hops, List.take_left']
  · exact hpast.foldl_replayEntry.symm
  · rfl

theorem runCalls_reachable :
    ∀ (calls : List Call) (c s : AnnotationContainer),
      Reachable c → runCalls c calls = .ok s → Reachable s := by
  intro calls
  induction calls with
  | nil =>
    intro c s hc h
    simp only [runCalls, Outcome.ok.injEq] at h
    exact h ▸ hc
  | cons call rest ih =>
    intro c s hc h
    simp only [runCalls] at h
    cases hstep : step c call with
    | ok c1 =>
      rw [hstep] at h
      exact ih c1 s (Reachable.returned call hc hstep) h
    | thrown e c1 => rw [hstep] at h; simp [Outcome.andThen] at h
    | undefined => rw [hstep] at h; simp [Outcome.andThen] at h


/-! ## Undo and redo as inverse walks along the log -/

theorem undo_redo_roundtrip :
    ∀ (n : Nat) (c : AnnotationContainer), Consistent c → (n : Int) ≤ c.curVersion + 1 →
      (repeatCall undo n c).andThen (repeatCall redo n) = .ok c := by
  intro n
  induction n with
  | zero => intro c _ _; rfl
  | succ n ih =>
    intro c hc hn
    have hne : c.curVersion ≠ -1 := by omega
    obtain ⟨c1, hundo, hc1, hcur1, _, _, hredo⟩ := undo_of_consistent hc hne
    have hfun : repeatCall redo (n + 1) = fun x => (repeatCall redo n x).andThen redo := by
      funext x
      exact repeatCall_succ_last redo n x
    show ((undo c).andThen (repeatCall undo n)).andThen (repeatCall redo (n + 1)) = .ok c
    rw [hundo, hfun]
    show (repeatCall undo n c1).andThen (fun x => (repeatCall redo n x).andThen redo) = .ok c
    rw [← Outcome.andThen_assoc, ih c1 hc1 (by omega)]
    exact hredo

theorem edits_end_at_last :
    ∀ (calls : List Call) (c s : AnnotationContainer), Consistent c →
      c.curVersion = (c.ops.length : Int) - 1 → (∀ call ∈ calls, call.isEdit = true) →
      runCalls c calls = .ok s → Consistent s ∧ s.curVersion = (s.ops.length : Int) - 1 := by
  intro calls
  induction calls with
  | nil =>
    intro c s hc hcur _ h
    simp only [runCalls, Outcome.ok.injEq] at h
    subst h
    exact ⟨hc, hcur⟩
  | cons call rest ih =>
    intro c s hc _ hedit h
    simp only [runCalls] at h
    cases hstep : step c call with
    | ok c1 =>
      rw [hstep] at h
      obtain ⟨past, _, entry, _, _, hops1, hcur1, _, _, hc1⟩ :=
        edit_ok_spec hc (hedit call (List.mem_cons_self _ _)) hstep
      refine ih c1 s hc1 ?_ (fun x hx => hedit x (List.mem_cons_of_mem _ hx)) h
      rw [hops1, hcur1]
      simp
    | thrown e c1 => rw [hstep] at h; simp [Outcome.andThen] at h
    | undefined => rw [hstep] at h; simp [Outcome.andThen] at h

/-! ## The claims -/

/-- C1. Round-trip law: in a state reached from the initial state by a sequence of
successful add/remove/modify calls, undoing `N` times and then redoing `N` times, for any
`N` up to the length of the log, returns normally and yields the items held before. -/
theorem C1_undo_redo_round_trip (calls : List Call) (s : AnnotationContainer) (N : Nat)
    (hedit : ∀ call ∈ calls, call.isEdit = true) (hrun : runCalls init calls = .ok s)
    (hN : N ≤ s.ops.length) :
    ∃ s1, (repeatCall undo N s).andThen (repeatCall redo N) = .ok s1 ∧ s1.items = s.items := by
  obtain ⟨hc, hcur⟩ := edits_end_at_last calls init s consistent_init rfl hedit hrun
  exact ⟨s, undo_redo_roundtrip N s hc (by omega), rfl⟩

/-- C1 at the session `sessionEdits`, which ends in `afterEdits`, with `N = 3`. -/
theorem C1_undo_redo_round_trip_witness :
    runCalls init sessionEdits = .ok afterEdits ∧ 3 ≤ afterEdits.ops.length ∧
      ∃ s1, (repeatCall undo 3 afterEdits).andThen (repeatCall redo 3) = .ok s1 ∧
        s1.items = afterEdits.items :=
  ⟨by decide, by decide,
    C1_undo_redo_round_trip sessionEdits afterEdits 3 (by decide) (by decide) (by decide)⟩

theorem reachable_of_runCalls (calls : List Call) (s : AnnotationContainer)
    (h : runCalls init calls = .ok s) : Reachable s :=
  runCalls_reachable calls init s Reachable.init h

/-- C2. Replay invariant: in every reachable state the cursor lies in
`[-1, log.length-1]` and the items are the log replayed from the empty sequence over the
entries `0..cursor`. -/
theorem C2_replay_invariant (c : AnnotationContainer) (h : Reachable c) :
    -1 ≤ c.curVersion ∧ c.curVersion ≤ (c.ops.length : Int) - 1 ∧
      c.items = replay c.ops c.curVersion :=
  ⟨h.consistent.cursor_range.1, h.consistent.cursor_range.2, h.consistent.items_eq_replay⟩

/-- C2 at the state `afterUndo`, where one of three log entries is undone. -/
theorem C2_replay_invariant_witness :
    Reachable afterUndo ∧ -1 ≤ afterUndo.curVersion ∧
      afterUndo.curVersion ≤ (afterUndo.ops.length : Int) - 1 ∧
      afterUndo.items = replay afterUndo.ops afterUndo.curVersion :=
  ⟨reachable_of_runCalls sessionUndo afterUndo (by decide),
    C2_replay_invariant afterUndo (reachable_of_runCalls sessionUndo afterUndo (by decide))⟩

/-! ## The scan of `newInstanceIdForLabel` -/

theorem scanItem_spec (label : String) (m0 : Int) (x : AnnotationItem) :
    m0 ≤ scanItem label m0 x ∧ (x.label = label → x.id ≤ scanItem label m0 x) ∧
      (scanItem label m0 x = m0 ∨ (x.label = label ∧ x.id = scanItem label m0 x)) := by
  unfold scanItem
  by_cases h : x.label = label
  · simp only [h, if_true, true_and, forall_true_left]
    rcases le_total x.id m0 with hle | hle
    · simp [max_eq_right hle, hle]
    · simp [max_eq_left hle, hle]
  · simp [h]

theorem foldl_scanItem_spec (label : String) :
    ∀ (items : List AnnotationItem) (m0 : Int),
      m0 ≤ items.foldl (scanItem label) m0 ∧
        (∀ x ∈ items, x.label = label → x.id ≤ items.foldl (scanItem label) m0) ∧
        (items.foldl (scanItem label) m0 = m0 ∨
          ∃ x ∈ items, x.label = label ∧ x.id = items.foldl (scanItem label) m0) := by
  intro items
  induction items with
  | nil => intro m0; simp
  | cons y items ih =>
    intro m0
    obtain ⟨h1, h2, h3⟩ := ih (scanItem label m0 y)
    obtain ⟨g1, g2, g3⟩ := scanItem_spec label m0 y
    simp only [List.foldl_cons, List.mem_cons]
    refine ⟨le_trans g1 h1, ?_, ?_⟩
    · rintro x (rfl | hx) hl
      · exact le_trans (g2 hl) h1
      · exact h2 x hx hl
    · rcases h3 with h3 | ⟨x, hx, hl, hid⟩
      · rcases g3 with g3 | ⟨gl, gid⟩
        · left; rw [h3, g3]
        · right; exact ⟨y, Or.inl rfl, gl, by rw [h3]; exact gid⟩
      · right; exact ⟨x, Or.inr hx, hl, hid⟩

theorem scanOp_spec (label : String) (m0 : Int) (op : AnnotationOp) :
    m0 ≤ scanOp label m0 op ∧
      (∀ x ∈ op.item :: op.item2.toList, x.label = label → x.id ≤ scanOp label m0 op) ∧
      (scanOp label m0 op = m0 ∨
        ∃ x ∈ op.item :: op.item2.toList, x.label = label ∧ x.id = scanOp label m0 op) := by
  obtain ⟨g1, g2, g3⟩ := scanItem_spec label m0 op.item
  cases h2 : op.item2 with
  | none =>
    have hs : scanOp label m0 op = scanItem label m0 op.item := by
      simp [scanOp, scanItem, h2]
    rw [hs]
    simp only [Option.toList, List.mem_singleton, forall_eq, exists_eq_left]
    exact ⟨g1, g2, g3⟩
  | some y =>
    have hs : scanOp label m0 op = scanItem label (scanItem label m0 op.item) y := by
      simp [scanOp, scanItem, h2]
    rw [hs]
    obtain ⟨k1, k2, k3⟩ := scanItem_spec label (scanItem label m0 op.item) y
    simp only [Option.toList, List.mem_cons, List.mem_singleton, List.not_mem_nil, or_false]
    refine ⟨le_trans g1 k1, ?_, ?_⟩
    · rintro x (rfl | rfl) hl
      · exact le_trans (g2 hl) k1
      · exact k2 hl
    · rcases k3 with k3 | ⟨kl, kid⟩
      · rcases g3 with g3 | ⟨gl, gid⟩
        · left; rw [k3, g3]
        · right; exact ⟨op.item, Or.inl rfl, gl, by rw [k3]; exact gid⟩
      · right; exact ⟨y, Or.inr rfl, kl, kid⟩

theorem foldl_scanOp_spec (label : String) :
    ∀ (ops : List AnnotationOp) (m0 : Int),
      m0 ≤ ops.foldl (scanOp label) m0 ∧
        (∀ x ∈ ops.flatMap (fun op => op.item :: op.item2.toList),
          x.label = label → x.id ≤ ops.foldl (scanOp label) m0) ∧
        (ops.foldl (scanOp label) m0 = m0 ∨
          ∃ x ∈ ops.flatMap (fun op => op.item :: op.item2.toList),
            x.label = label ∧ x.id = ops.foldl (scanOp label) m0) := by
  intro ops
  induction ops with
  | nil => intro m0; simp
  | cons op ops ih =>
    intro m0
    obtain ⟨h1, h2, h3⟩ := ih (scanOp label m0 op)
    obtain ⟨g1, g2, g3⟩ := scanOp_spec label m0 op
    simp only [List.foldl_cons, List.flatMap_cons, List.mem_append]
    refine ⟨le_trans g1 h1, ?_, ?_⟩
    · rintro x (hx | hx) hl
      · exact le_trans (g2 x hx hl) h1
      · exact h2 x hx hl
    · rcases h3 with h3 | ⟨x, hx, hl, hid⟩
      · rcases g3 with g3 | ⟨x, hx, gl, gid⟩
        · left; rw [h3, g3]
        · right; exact ⟨x, Or.inl hx, gl, by rw [h3]; exact gid⟩
      · right; exact ⟨x, Or.inr hx, hl, hid⟩

theorem scanMaxId_spec (c : AnnotationContainer) (label : String) :
    -1 ≤ scanMaxId c label ∧
      (∀ x ∈ recorded c, x.label = label → x.id ≤ scanMaxId c label) ∧
      (scanMaxId c label = -1 ∨
        ∃ x ∈ recorded c, x.label = label ∧ x.id = scanMaxId c label) := by
  obtain ⟨h1, h2, h3⟩ := foldl_scanItem_spec label c.items (-1)
  obtain ⟨g1, g2, g3⟩ := foldl_scanOp_spec label c.ops (c.items.foldl (scanItem label) (-1))
  unfold scanMaxId recorded
  simp only [List.mem_append]
  refine ⟨le_trans h1 g1, ?_, ?_⟩
  · rintro x (hx | hx) hl
    · exact le_trans (h2 x hx hl) g1
    · exact g2 x hx hl
  · rcases g3 with g3 | ⟨x, hx, gl, gid⟩
    · rcases h3 with h3 | ⟨x, hx, hl, hid⟩
      · left; rw [g3, h3]
      · right; exact ⟨x, Or.inl hx, hl, by rw [g3]; exact hid⟩
    · right; exact ⟨x, Or.inr hx, gl, gid⟩

theorem newInstanceIdForLabel_ok_iff (c : AnnotationContainer) (label : String) (n : Int) :
    newInstanceIdForLabel c label = .ok n ↔
      n = scanMaxId c label + 1 ∧ scanMaxId c label + 1 ≤ 255 := by
  unfold newInstanceIdForLabel INT_MAX
  simp only
  split
  · constructor
    · intro h; cases h
    · rintro ⟨_, h⟩; omega
  · split
    · constructor
      · intro h; cases h
      · rintro ⟨_, h⟩; omega
    · constructor
      · intro h
        simp only [Result.ok.injEq] at h
        exact ⟨h.symm, by omega⟩
      · rintro ⟨h, _⟩
        rw [h]

/-! ## Claims on instance ids, the redo branch and index errors -/

/-- C3, as stated, fails: in the session add `catA`, undo, add `dogA` (no clear), the item
`catA` with label `cat` was passed to add, yet afterwards `newInstanceIdForLabel "cat"`
returns 0, which is not greater than the id 0 of `catA`. -/
theorem C3_ids_never_reused_counterexample :
    runCalls init sessionReuse = .ok afterReuse ∧ Call.push_back catA ∈ sessionReuse ∧
      (∀ call ∈ sessionReuse, call ≠ Call.allClear) ∧ catA.label = "cat" ∧
      newInstanceIdForLabel afterReuse "cat" = .ok 0 ∧ ¬ (catA.id < 0) := by
  decide

/-- In every state, a successful `newInstanceIdForLabel label` returns a value strictly
greater than the id of every recorded item with that label. -/
theorem next_id_above_recorded (c : AnnotationContainer) (label : String)
    (x : AnnotationItem) (n : Int) (hx : x ∈ recorded c) (hl : x.label = label)
    (hn : newInstanceIdForLabel c label = .ok n) : x.id < n := by
  obtain ⟨hn1, _⟩ := (newInstanceIdForLabel_ok_iff c label n).mp hn
  have := (scanMaxId_spec c label).2.1 x hx hl
  omega

/-- C4. Redo-branch discard: in a reachable state with cursor `c`, a successful add,
remove or modify leaves a log made of the first `c+1` old entries followed by one new
entry, puts the cursor on the last entry, and a following `redo` changes nothing. -/
theorem C4_redo_branch_discard (c c1 : AnnotationContainer) (call : Call)
    (hr : Reachable c) (hedit : call.isEdit = true) (hok : step c call = .ok c1) :
    (∃ entry, c1.ops = c.ops.take (c.curVersion + 1).toNat ++ [entry]) ∧
      c1.curVersion = (c1.ops.length : Int) - 1 ∧ redo c1 = .ok c1 := by
  obtain ⟨past, future, entry, hops, hcur, hops1, hcur1, _, _, _⟩ :=
    edit_ok_spec hr.consistent hedit hok
  have hlast : c1.curVersion = (c1.ops.length : Int) - 1 := by
    rw [hops1, hcur1]; simp
  refine ⟨⟨entry, ?_⟩, hlast, redo_at_last c1 hlast⟩
  have hn : (c.curVersion + 1).toNat = past.length := by omega
  rw [hn, hops, List.take_left', hops1]
  rfl

/-- C4 at the state `afterUndo`, whose last log entry is undone, and the call add `dogA`. -/
theorem C4_redo_branch_discard_witness :
    Reachable afterUndo ∧ step afterUndo (.push_back dogA) = .ok afterUndoThenAdd ∧
      (∃ entry, afterUndoThenAdd.ops =
        afterUndo.ops.take (afterUndo.curVersion + 1).toNat ++ [entry]) ∧
      afterUndoThenAdd.curVersion = (afterUndoThenAdd.ops.length : Int) - 1 ∧
      redo afterUndoThenAdd = .ok afterUndoThenAdd :=
  ⟨reachable_of_runCalls sessionUndo afterUndo (by decide), by decide,
    C4_redo_branch_discard afterUndo afterUndoThenAdd (.push_back dogA)
      (reachable_of_runCalls sessionUndo afterUndo (by decide)) (by decide) (by decide)⟩

theorem itemAt_eq (c : AnnotationContainer) (idx : Int) :
    itemAt c idx =
      if 0 ≤ idx ∧ idx < (c.items.length : Int) then
        match getAt c.items idx with
        | some item => .ok item
        | none => .undefined
      else .thrown .idxOutOfRange := by
  unfold itemAt checkIdx
  by_cases h : 0 ≤ idx ∧ idx < (c.items.length : Int)
  · rw [if_neg (by simpa using h), if_pos h]
    cases getAt c.items idx <;> rfl
  · rw [if_pos (by simpa using h), if_neg h]

/-- C5. Index errors are exact and atomic: in a reachable state, for an index outside
`[0, items.length)` the calls `remove`, `modify` and `operator[]` throw the index
exception, `remove` and `modify` doing so in the unchanged state; for an index inside
the range all three return normally. -/
theorem C5_index_errors (c : AnnotationContainer) (idx : Int) (x : AnnotationItem)
    (hr : Reachable c) :
    (¬ (0 ≤ idx ∧ idx < (c.items.length : Int)) →
      remove c idx = .thrown .idxOutOfRange c ∧ modify c idx x = .thrown .idxOutOfRange c ∧
        itemAt c idx = .thrown .idxOutOfRange) ∧
    ((0 ≤ idx ∧ idx < (c.items.length : Int)) →
      (∃ c1, remove c idx = .ok c1) ∧ (∃ c1, modify c idx x = .ok c1) ∧
        ∃ item, itemAt c idx = .ok item) := by
  constructor
  · intro hout
    refine ⟨remove_out_of_range c idx hout, modify_out_of_range c idx x hout, ?_⟩
    rw [itemAt_eq, if_neg hout]
  · intro hin
    obtain ⟨past, future, _, hops, hcur, _, _⟩ := hr.consistent
    obtain ⟨old, hold⟩ := getAt_isSome_of_range c.items idx hin.1 hin.2
    refine ⟨⟨_, remove_eq c idx old past future hops hcur hold⟩,
      ⟨_, modify_eq c idx x old past future hops hcur hold⟩, old, ?_⟩
    rw [itemAt_eq, if_pos hin, hold]

/-- C5 at the state `afterUndo`, which holds two items, and the indices 2 and 1. -/
theorem C5_index_errors_witness :
    Reachable afterUndo ∧
      (remove afterUndo 2 = .thrown .idxOutOfRange afterUndo ∧
        modify afterUndo 2 dogA = .thrown .idxOutOfRange afterUndo ∧
        itemAt afterUndo 2 = .thrown .idxOutOfRange) ∧
      ((∃ c1, remove afterUndo 1 = .ok c1) ∧ (∃ c1, modify afterUndo 1 dogA = .ok c1) ∧
        ∃ item, itemAt afterUndo 1 = .ok item) :=
  ⟨reachable_of_runCalls sessionUndo afterUndo (by decide),
    (C5_index_errors afterUndo 2 dogA
      (reachable_of_runCalls sessionUndo afterUndo (by decide))).1 (by decide),
    (C5_index_errors afterUndo 1 dogA
      (reachable_of_runCalls sessionUndo afterUndo (by decide))).2 (by decide)⟩


/-! ## Claims on import, remove-then-undo, id allocation, add and clear -/

/-- C6, as stated, fails: for a root without a field `annotations` the member
`fromJsonObject` does not throw; it returns normally and leaves the container as it
was. -/
theorem C6_fromJsonObject_counterexample :
    rootWithoutAnnotations.contains "annotations" = false ∧
      fromJsonObject sampleDecoders afterTwoAdds rootWithoutAnnotations "Detection " =
        .ok afterTwoAdds := by
  constructor
  · decide
  · rfl

/-- C6, amended. `fromJsonObject` throws the not-an-array exception, in the unchanged
state, for every root whose field `annotations` is present and is not an array; for a
root without that field it returns normally in the unchanged state; for a root whose
field `annotations` is an array it behaves as `fromJsonArray` on that array. -/
theorem C6_fromJsonObject_cases (dec : ItemDecoders) (c : AnnotationContainer)
    (json : QJsonObject) (format : String) :
    (json.contains "annotations" = true →
      (∀ elements, json.value "annotations" ≠ .array elements) →
        fromJsonObject dec c json format = .thrown .notArray c) ∧
    (json.contains "annotations" = false → fromJsonObject dec c json format = .ok c) ∧
    (json.contains "annotations" = true →
      ∀ elements, json.value "annotations" = .array elements →
        fromJsonObject dec c json format = fromJsonArray dec c elements format) := by
  unfold fromJsonObject
  refine ⟨?_, ?_, ?_⟩
  · intro hc hna
    rw [if_pos hc]
    cases hv : json.value "annotations" with
    | array elements => exact absurd hv (hna elements)
    | _ => rfl
  · intro hc
    rw [if_neg (by simp [hc])]
  · intro hc elements hv
    rw [if_pos hc, hv]

/-- C6 amended, at the roots `rootNotArray`, `rootWithoutAnnotations` and `rootOneItem`. -/
theorem C6_fromJsonObject_cases_witness :
    fromJsonObject sampleDecoders afterTwoAdds rootNotArray "Detection " =
        .thrown .notArray afterTwoAdds ∧
      fromJsonObject sampleDecoders afterTwoAdds rootWithoutAnnotations "Detection " =
        .ok afterTwoAdds ∧
      fromJsonObject sampleDecoders afterTwoAdds rootOneItem "Detection " =
        fromJsonArray sampleDecoders afterTwoAdds
          [.object [("label", .string "cat"), ("id", .double 0)]] "Detection " :=
  ⟨(C6_fromJsonObject_cases sampleDecoders afterTwoAdds rootNotArray "Detection ").1
      (by decide) (by intro elements h; cases h),
    (C6_fromJsonObject_cases sampleDecoders afterTwoAdds rootWithoutAnnotations
      "Detection ").2.1 (by decide),
    (C6_fromJsonObject_cases sampleDecoders afterTwoAdds rootOneItem "Detection ").2.2
      (by decide) _ rfl⟩

/-- C7. In a reachable state, for every valid index, `remove(idx)` followed by `undo()`
returns normally and yields the items held before the remove, with the removed item at
position `idx` again. -/
theorem C7_remove_then_undo (c : AnnotationContainer) (idx : Int) (hr : Reachable c)
    (hin : 0 ≤ idx ∧ idx < (c.items.length : Int)) :
    ∃ c1 c2 removed, getAt c.items idx = some removed ∧ remove c idx = .ok c1 ∧
      undo c1 = .ok c2 ∧ c2.items = c.items ∧ getAt c2.items idx = some removed := by
  obtain ⟨removed, hrem⟩ := getAt_isSome_of_range c.items idx hin.1 hin.2
  obtain ⟨past, future, _, hops, hcur, _, _⟩ := hr.consistent
  have h1 := remove_eq c idx removed past future hops hcur hrem
  have hrec : Records { opClass := .REMOVE, idx := idx, item := removed, item2 := none }
      c.items (c.items.eraseIdx idx.toNat) :=
    ⟨hin.1, ((getAt_eq_some_iff _ _ _).mp hrem).2, rfl⟩
  have h2 := undo_eq
    { items := c.items.eraseIdx idx.toNat,
      ops := past ++ [{ opClass := .REMOVE, idx := idx, item := removed, item2 := none }],
      curVersion := (past.length : Int), selectedIdx := c.selectedIdx }
    past [] _ c.items rfl rfl hrec
  exact ⟨_, _, removed, hrem, h1, h2, rfl, hrem⟩

/-- C7 on the spec's example: after add `catA`, add `catB`, the calls `remove(0)` and
`undo()` give the items `[catA, catB]`, and the next instance id for `cat` is 2. -/
theorem C7_remove_then_undo_witness :
    Reachable afterTwoAdds ∧
      (∃ c1 c2 removed, getAt afterTwoAdds.items 0 = some removed ∧
        remove afterTwoAdds 0 = .ok c1 ∧ undo c1 = .ok c2 ∧ c2.items = afterTwoAdds.items ∧
        getAt c2.items 0 = some removed) ∧
      runCalls init sessionExample = .ok afterExample ∧ afterExample.items = [catA, catB] ∧
      newInstanceIdForLabel afterExample "cat" = .ok 2 :=
  ⟨reachable_of_runCalls [.push_back catA, .push_back catB] afterTwoAdds (by decide),
    C7_remove_then_undo afterTwoAdds 0
      (reachable_of_runCalls [.push_back catA, .push_back catB] afterTwoAdds (by decide))
      (by decide),
    by decide, by decide, by decide⟩

/-- C8. In a state whose recorded ids all lie in `0..255`, there is a maximum id `m`
among the recorded items with the label (`-1` when there is none), and for that `m` the
member `newInstanceIdForLabel` throws the range exception when `m+1 > 255` and returns
`m+1` otherwise. -/
theorem C8_next_instance_id (c : AnnotationContainer) (label : String)
    (hids : ∀ x ∈ recorded c, 0 ≤ x.id ∧ x.id ≤ 255) :
    (∃ m, IsMaxId c label m) ∧
      ∀ m, IsMaxId c label m →
        newInstanceIdForLabel c label =
          if m + 1 > 255 then .thrown .idOutOfRange else .ok (m + 1) := by
  obtain ⟨hlow, hub, hatt⟩ := scanMaxId_spec c label
  have hex : IsMaxId c label (scanMaxId c label) := by
    refine ⟨hub, ?_⟩
    rcases hatt with hneg | ⟨x, hx, hl, hid⟩
    · by_cases hany : ∃ x ∈ recorded c, x.label = label
      · obtain ⟨x, hx, hl⟩ := hany
        have h1 := hub x hx hl
        have h2 := (hids x hx).1
        omega
      · right
        exact ⟨fun x hx hl => hany ⟨x, hx, hl⟩, hneg⟩
    · left; exact ⟨x, hx, hl, hid⟩
  refine ⟨⟨_, hex⟩, ?_⟩
  intro m hm
  have hm_eq : m = scanMaxId c label := by
    obtain ⟨hmub, hmatt⟩ := hm
    rcases hmatt with ⟨x, hx, hl, hid⟩ | ⟨hnone, hneg⟩
    · have h1 := hub x hx hl
      rcases hatt with hs | ⟨y, hy, hyl, hyid⟩
      · have h2 := (hids x hx).1
        omega
      · have h3 := hmub y hy hyl
        omega
    · rcases hatt with hs | ⟨y, hy, hyl, _⟩
      · omega
      · exact absurd hyl (hnone y hy)
  have hle : scanMaxId c label ≤ 255 := by
    rcases hatt with hs | ⟨y, hy, _, hyid⟩
    · omega
    · have := (hids y hy).2
      omega
  subst hm_eq
  unfold newInstanceIdForLabel INT_MAX
  simp only
  rw [if_neg (by omega)]

/-- C8 at the state `afterEdits` and the label `cat`: the maximum recorded id is 1 (on
`catB`), and the next id is 2. -/
theorem C8_next_instance_id_witness :
    (∀ x ∈ recorded afterEdits, 0 ≤ x.id ∧ x.id ≤ 255) ∧ IsMaxId afterEdits "cat" 1 ∧
      newInstanceIdForLabel afterEdits "cat" = .ok 2 :=
  ⟨by decide, by unfold IsMaxId; decide,
    ((C8_next_instance_id afterEdits "cat" (by decide)).2 1 (by unfold IsMaxId; decide)).trans
      (by decide)⟩

/-- C9. In a reachable state `add(x)` returns normally; afterwards the length is one more,
the last position holds `x`, and every earlier position holds what it held before. -/
theorem C9_add_appends (c : AnnotationContainer) (x : AnnotationItem) (hr : Reachable c) :
    ∃ c1, push_back c x = .ok c1 ∧ length c1 = length c + 1 ∧
      itemAt c1 (length c1 - 1) = .ok x ∧
      ∀ i : Int, 0 ≤ i → i < length c → itemAt c1 i = itemAt c i := by
  obtain ⟨past, future, _, hops, hcur, _, _⟩ := hr.consistent
  refine ⟨_, push_back_eq c x past future hops hcur, ?_, ?_, ?_⟩
  · simp [length]
  · rw [itemAt_eq]
    simp only [length, List.length_append, List.length_singleton]
    have h1 : ((c.items.length + 1 : Nat) : Int) - 1 = (c.items.length : Int) := by omega
    rw [h1, if_pos (by omega)]
    have h2 : c.items ++ [x] = c.items ++ x :: [] := rfl
    rw [h2, getAt_append_length]
  · intro i h0 hlt
    unfold length at hlt
    rw [itemAt_eq, itemAt_eq]
    simp only [List.length_append, List.length_singleton]
    have hnat : i.toNat < c.items.length := by omega
    rw [if_pos (by omega), if_pos ⟨h0, hlt⟩]
    simp only [getAt, h0, if_true]
    rw [List.getElem?_append_left hnat]

/-- C9 at the state `afterUndo` and the item `dogA`. -/
theorem C9_add_appends_witness :
    Reachable afterUndo ∧
      ∃ c1, push_back afterUndo dogA = .ok c1 ∧ length c1 = length afterUndo + 1 ∧
        itemAt c1 (length c1 - 1) = .ok dogA ∧
        ∀ i : Int, 0 ≤ i → i < length afterUndo → itemAt c1 i = itemAt afterUndo i :=
  ⟨reachable_of_runCalls sessionUndo afterUndo (by decide),
    C9_add_appends afterUndo dogA (reachable_of_runCalls sessionUndo afterUndo (by decide))⟩

/-- C10. From every state `clear()` returns normally in a state with no items, an empty
log, cursor `-1` and selection `-1`, in which undo and redo are both unavailable and
`newInstanceIdForLabel` returns 0 for every label. -/
theorem C10_clear_resets (c : AnnotationContainer) :
    ∃ c1, allClear c = .ok c1 ∧ length c1 = 0 ∧ c1.ops = [] ∧ c1.curVersion = -1 ∧
      c1.selectedIdx = -1 ∧ canUndo c1 = false ∧ canRedo c1 = false ∧
      ∀ label, newInstanceIdForLabel c1 label = .ok 0 :=
  ⟨_, rfl, rfl, rfl, rfl, rfl, by decide, by decide, fun _ => rfl⟩

/-! ## Claims on the effect of remove and modify, and on undo and redo -/

theorem itemAt_of_getAt (c : AnnotationContainer) (idx : Int) (item : AnnotationItem)
    (h : getAt c.items idx = some item) : itemAt c idx = .ok item := by
  have hr := getAt_range _ _ _ h
  rw [itemAt_eq, if_pos hr, h]

theorem take_cursor_eq (c : AnnotationContainer) (past future : List AnnotationOp)
    (hops : c.ops = past ++ future) (hcur : c.curVersion = (past.length : Int) - 1) :
    c.ops.take (c.curVersion + 1).toNat = past := by
  have hn : (c.curVersion + 1).toNat = past.length := by omega
  rw [hn, hops, List.take_left']
  rfl

/-- C13. In a reachable state, for a valid index, `remove(idx)` returns normally; the
length drops by one, positions below `idx` keep their item, every later position holds
the item that stood one place further on, and the entry appended to the kept part of the
log is REMOVE with that `idx` and the item that stood at `idx`. -/
theorem C13_remove_effect (c : AnnotationContainer) (idx : Int) (hr : Reachable c)
    (hin : 0 ≤ idx ∧ idx < (c.items.length : Int)) :
    ∃ c1 removed, itemAt c idx = .ok removed ∧ remove c idx = .ok c1 ∧
      length c1 = length c - 1 ∧
      (∀ i : Int, 0 ≤ i → i < idx → itemAt c1 i = itemAt c i) ∧
      (∀ i : Int, idx ≤ i → i < length c - 1 → itemAt c1 i = itemAt c (i + 1)) ∧
      c1.ops = c.ops.take (c.curVersion + 1).toNat ++
        [{ opClass := .REMOVE, idx := idx, item := removed, item2 := none }] := by
  obtain ⟨removed, hrem⟩ := getAt_isSome_of_range c.items idx hin.1 hin.2
  obtain ⟨past, future, _, hops, hcur, _, _⟩ := hr.consistent
  have hlt : idx.toNat < c.items.length := by omega
  have hlen : ((c.items.eraseIdx idx.toNat).length : Int) = (c.items.length : Int) - 1 := by
    rw [List.length_eraseIdx_of_lt hlt]; omega
  refine ⟨_, removed, itemAt_of_getAt c idx removed hrem,
    remove_eq c idx removed past future hops hcur hrem, ?_, ?_, ?_, ?_⟩
  · simp only [length]
    exact hlen
  · intro i h0 hi
    rw [itemAt_eq, itemAt_eq]
    simp only [hlen]
    rw [if_pos (by omega), if_pos (by omega)]
    simp only [getAt, h0, if_true]
    rw [List.getElem?_eraseIdx_of_lt _ _ _ (by omega)]
  · intro i hi hlast
    simp only [length] at hlast
    rw [itemAt_eq, itemAt_eq]
    simp only [hlen]
    rw [if_pos (by omega), if_pos (by omega)]
    have h0 : 0 ≤ i := by omega
    have h1 : 0 ≤ i + 1 := by omega
    simp only [getAt, h0, h1, if_true]
    rw [List.getElem?_eraseIdx_of_ge _ _ _ (by omega)]
    have : (i + 1).toNat = i.toNat + 1 := by omega
    rw [this]
  · show past ++ _ = _
    rw [take_cursor_eq c past future hops hcur]

/-- C13 at the state `afterUndo` (items `catA`, `catB`, one undone log entry) and index 0. -/
theorem C13_remove_effect_witness :
    Reachable afterUndo ∧
      ∃ c1 removed, itemAt afterUndo 0 = .ok removed ∧ remove afterUndo 0 = .ok c1 ∧
        length c1 = length afterUndo - 1 ∧
        (∀ i : Int, 0 ≤ i → i < 0 → itemAt c1 i = itemAt afterUndo i) ∧
        (∀ i : Int, 0 ≤ i → i < length afterUndo - 1 → itemAt c1 i = itemAt afterUndo (i + 1)) ∧
        c1.ops = afterUndo.ops.take (afterUndo.curVersion + 1).toNat ++
          [{ opClass := .REMOVE, idx := 0, item := removed, item2 := none }] :=
  ⟨reachable_of_runCalls sessionUndo afterUndo (by decide),
    C13_remove_effect afterUndo 0 (reachable_of_runCalls sessionUndo afterUndo (by decide))
      (by decide)⟩

/-- C14. In a reachable state, for a valid index, `modify(idx, x)` returns normally; the
length and every position other than `idx` are unchanged, position `idx` holds `x`, the
entry appended to the kept part of the log is MODIFY with that `idx`, the old item and
`x`; and a following `undo()` returns with the old item at `idx` again. -/
theorem C14_modify_effect (c : AnnotationContainer) (idx : Int) (x : AnnotationItem)
    (hr : Reachable c) (hin : 0 ≤ idx ∧ idx < (c.items.length : Int)) :
    ∃ c1 old, itemAt c idx = .ok old ∧ modify c idx x = .ok c1 ∧
      length c1 = length c ∧
      (∀ i : Int, i ≠ idx → itemAt c1 i = itemAt c i) ∧
      itemAt c1 idx = .ok x ∧
      c1.ops = c.ops.take (c.curVersion + 1).toNat ++
        [{ opClass := .MODIFY, idx := idx, item := old, item2 := some x }] ∧
      ∃ c2, undo c1 = .ok c2 ∧ itemAt c2 idx = .ok old ∧ c2.items = c.items := by
  obtain ⟨old, hold⟩ := getAt_isSome_of_range c.items idx hin.1 hin.2
  obtain ⟨past, future, _, hops, hcur, _, _⟩ := hr.consistent
  have hlt : idx.toNat < c.items.length := by omega
  have hrec : Records { opClass := .MODIFY, idx := idx, item := old, item2 := some x }
      c.items (c.items.set idx.toNat x) :=
    ⟨hin.1, ((getAt_eq_some_iff _ _ _).mp hold).2, x, rfl, rfl⟩
  have h2 := undo_eq
    { items := c.items.set idx.toNat x,
      ops := past ++ [{ opClass := .MODIFY, idx := idx, item := old, item2 := some x }],
      curVersion := (past.length : Int), selectedIdx := c.selectedIdx }
    past [] _ c.items rfl rfl hrec
  refine ⟨_, old, itemAt_of_getAt c idx old hold,
    modify_eq c idx x old past future hops hcur hold, ?_, ?_, ?_, ?_, _, h2, ?_, rfl⟩
  · simp [length]
  · intro i hi
    rw [itemAt_eq, itemAt_eq]
    simp only [List.length_set]
    by_cases hr : 0 ≤ i ∧ i < (c.items.length : Int)
    · rw [if_pos hr, if_pos hr]
      simp only [getAt, hr.1, if_true]
      rw [List.getElem?_set_ne (by omega)]
    · rw [if_neg hr, if_neg hr]
  · apply itemAt_of_getAt
    simp only [getAt, hin.1, if_true]
    rw [List.getElem?_set_self hlt]
  · show past ++ _ = _
    rw [take_cursor_eq c past future hops hcur]
  · exact itemAt_of_getAt _ idx old hold

/-- C14 at the state `afterUndo`, index 1 and the new item `dogA`. -/
theorem C14_modify_effect_witness :
    Reachable afterUndo ∧
      ∃ c1 old, itemAt afterUndo 1 = .ok old ∧ modify afterUndo 1 dogA = .ok c1 ∧
        length c1 = length afterUndo ∧
        (∀ i : Int, i ≠ 1 → itemAt c1 i = itemAt afterUndo i) ∧
        itemAt c1 1 = .ok dogA ∧
        c1.ops = afterUndo.ops.take (afterUndo.curVersion + 1).toNat ++
          [{ opClass := .MODIFY, idx := 1, item := old, item2 := some dogA }] ∧
        ∃ c2, undo c1 = .ok c2 ∧ itemAt c2 1 = .ok old ∧ c2.items = afterUndo.items :=
  ⟨reachable_of_runCalls sessionUndo afterUndo (by decide),
    C14_modify_effect afterUndo 1 dogA
      (reachable_of_runCalls sessionUndo afterUndo (by decide)) (by decide)⟩

theorem undo_total {c : AnnotationContainer} (h : Consistent c) :
    ∃ c1, undo c = .ok c1 ∧ c1.ops = c.ops ∧ c1.selectedIdx = c.selectedIdx ∧
      (c.curVersion = -1 → c1 = c) ∧
      (c.curVersion ≠ -1 → c1.curVersion = c.curVersion - 1) := by
  by_cases hne : c.curVersion = -1
  · exact ⟨c, undo_at_first c hne, rfl, rfl, fun _ => rfl, fun h => absurd hne h⟩
  · obtain ⟨c1, h1, _, hcur, hops, hsel, _⟩ := undo_of_consistent h hne
    exact ⟨c1, h1, hops, hsel, fun h => absurd h hne, fun _ => hcur⟩

theorem redo_total {c : AnnotationContainer} (h : Consistent c) :
    ∃ c1, redo c = .ok c1 ∧ c1.ops = c.ops ∧ c1.selectedIdx = c.selectedIdx ∧
      (c.curVersion = (c.ops.length : Int) - 1 → c1 = c) ∧
      (c.curVersion ≠ (c.ops.length : Int) - 1 → c1.curVersion = c.curVersion + 1) := by
  by_cases hne : c.curVersion = (c.ops.length : Int) - 1
  · exact ⟨c, redo_at_last c hne, rfl, rfl, fun _ => rfl, fun h => absurd hne h⟩
  · obtain ⟨c1, h1, _, hcur, hops, hsel, _⟩ := redo_of_consistent h hne
    exact ⟨c1, h1, hops, hsel, fun h => absurd h hne, fun _ => hcur⟩

/-- C15. In every reachable state `undo()` and `redo()` return normally and leave the log
(the same entries in the same order) and the selection as they were. -/
theorem C15_undo_redo_keep_log (c : AnnotationContainer) (hr : Reachable c) :
    (∃ c1, undo c = .ok c1 ∧ c1.ops = c.ops ∧ c1.selectedIdx = c.selectedIdx) ∧
      ∃ c1, redo c = .ok c1 ∧ c1.ops = c.ops ∧ c1.selectedIdx = c.selectedIdx := by
  obtain ⟨c1, h1, hops1, hsel1, _⟩ := undo_total hr.consistent
  obtain ⟨c2, h2, hops2, hsel2, _⟩ := redo_total hr.consistent
  exact ⟨⟨c1, h1, hops1, hsel1⟩, ⟨c2, h2, hops2, hsel2⟩⟩

/-- C15 at the state `afterUndo`, where both an undo and a redo take effect. -/
theorem C15_undo_redo_keep_log_witness :
    Reachable afterUndo ∧
      (∃ c1, undo afterUndo = .ok c1 ∧ c1.ops = afterUndo.ops ∧
        c1.selectedIdx = afterUndo.selectedIdx) ∧
      ∃ c1, redo afterUndo = .ok c1 ∧ c1.ops = afterUndo.ops ∧
        c1.selectedIdx = afterUndo.selectedIdx :=
  ⟨reachable_of_runCalls sessionUndo afterUndo (by decide),
    C15_undo_redo_keep_log afterUndo (reachable_of_runCalls sessionUndo afterUndo (by decide))⟩

/-- C16. In every reachable state, `undo()` leaves the whole state unchanged exactly when
`canUndo` is false, and otherwise lowers the cursor by one; `redo()` leaves the whole
state unchanged exactly when `canRedo` is false, and otherwise raises the cursor by
one. -/
theorem C16_availability_matches_effect (c : AnnotationContainer) (hr : Reachable c) :
    (undo c = .ok c ↔ canUndo c = false) ∧
      (canUndo c = true → ∃ c1, undo c = .ok c1 ∧ c1.curVersion = c.curVersion - 1) ∧
      (redo c = .ok c ↔ canRedo c = false) ∧
      (canRedo c = true → ∃ c1, redo c = .ok c1 ∧ c1.curVersion = c.curVersion + 1) := by
  obtain ⟨c1, h1, _, _, hsame1, hstep1⟩ := undo_total hr.consistent
  obtain ⟨c2, h2, _, _, hsame2, hstep2⟩ := redo_total hr.consistent
  have hu : canUndo c = false ↔ c.curVersion = -1 := by simp [canUndo]
  have hd : canRedo c = false ↔ c.curVersion = (c.ops.length : Int) - 1 := by simp [canRedo]
  have hu1 : canUndo c = true ↔ c.curVersion ≠ -1 := by simp [canUndo]
  have hd1 : canRedo c = true ↔ c.curVersion ≠ (c.ops.length : Int) - 1 := by simp [canRedo]
  refine ⟨⟨?_, ?_⟩, ?_, ⟨?_, ?_⟩, ?_⟩
  · intro h
    rw [hu]
    by_contra hne
    rw [h1, Outcome.ok.injEq] at h
    have := hstep1 hne
    rw [h] at this
    omega
  · intro h
    rw [h1, hsame1 (hu.mp h)]
  · intro h
    exact ⟨c1, h1, hstep1 (hu1.mp h)⟩
  · intro h
    rw [hd]
    by_contra hne
    rw [h2, Outcome.ok.injEq] at h
    have := hstep2 hne
    rw [h] at this
    omega
  · intro h
    rw [h2, hsame2 (hd.mp h)]
  · intro h
    exact ⟨c2, h2, hstep2 (hd1.mp h)⟩

/-- C16 at the state `afterUndo`, where undo and redo are both available. -/
theorem C16_availability_matches_effect_witness :
    Reachable afterUndo ∧ canUndo afterUndo = true ∧ canRedo afterUndo = true ∧
      (undo afterUndo = .ok afterUndo ↔ canUndo afterUndo = false) ∧
      (canUndo afterUndo = true →
        ∃ c1, undo afterUndo = .ok c1 ∧ c1.curVersion = afterUndo.curVersion - 1) ∧
      (redo afterUndo = .ok afterUndo ↔ canRedo afterUndo = false) ∧
      (canRedo afterUndo = true →
        ∃ c1, redo afterUndo = .ok c1 ∧ c1.curVersion = afterUndo.curVersion + 1) :=
  ⟨reachable_of_runCalls sessionUndo afterUndo (by decide), by decide, by decide,
    C16_availability_matches_effect afterUndo
      (reachable_of_runCalls sessionUndo afterUndo (by decide))⟩

/-- C17. Tail removal on PUSH-undo is safe: in a reachable state whose cursor points at a
PUSH entry the items are not empty and their last element is that entry's item, and
`undo()` returns with exactly that last element taken away. -/
theorem C17_push_undo_removes_pushed (c : AnnotationContainer) (op : AnnotationOp)
    (hr : Reachable c) (hop : getAt c.ops c.curVersion = some op)
    (hpush : op.opClass = .PUSH) :
    c.items ≠ [] ∧ c.items.getLast? = some op.item ∧
      ∃ c1, undo c = .ok c1 ∧ c.items = c1.items ++ [op.item] := by
  obtain ⟨past, future, _, hops, hcur, hpast, _⟩ := hr.consistent
  have hrange := getAt_range _ _ _ hop
  rcases List.eq_nil_or_concat past with hnil | ⟨p, top, hp⟩
  · subst hnil; simp at hcur; omega
  · rw [List.concat_eq_append] at hp
    subst hp
    obtain ⟨a, _, hrec⟩ := Chain.snoc_inv hpast
    have hops1 : c.ops = p ++ top :: future := by simp [hops]
    have hcur1 : c.curVersion = (p.length : Int) := by
      rw [hcur, List.length_append]; simp
    have htop : top = op := by
      rw [hops1, hcur1, getAt_append_length] at hop
      exact Option.some.inj hop
    subst htop
    have hitems : c.items = a ++ [top.item] := by
      unfold Records at hrec
      simpa [hpush] using hrec
    refine ⟨?_, ?_, _, undo_eq c p future top a hops1 hcur1 hrec, hitems⟩
    · rw [hitems]; simp
    · rw [hitems, List.getLast?_concat]

/-- C17 at the state `afterTwoAdds`, whose cursor points at the PUSH of `catB`. -/
theorem C17_push_undo_removes_pushed_witness :
    Reachable afterTwoAdds ∧
      getAt afterTwoAdds.ops afterTwoAdds.curVersion = some ⟨.PUSH, 0, catB, none⟩ ∧
      afterTwoAdds.items ≠ [] ∧ afterTwoAdds.items.getLast? = some catB ∧
      ∃ c1, undo afterTwoAdds = .ok c1 ∧ afterTwoAdds.items = c1.items ++ [catB] :=
  ⟨reachable_of_runCalls [.push_back catA, .push_back catB] afterTwoAdds (by decide),
    by decide,
    C17_push_undo_removes_pushed afterTwoAdds ⟨.PUSH, 0, catB, none⟩
      (reachable_of_runCalls [.push_back catA, .push_back catB] afterTwoAdds (by decide))
      (by decide) rfl⟩

/-- C19. Single-step inverses: in a reachable state where redo is available, `redo()`
followed by `undo()` returns with items, log and cursor as they were; where undo is
available, `undo()` followed by `redo()` does. -/
theorem C19_single_step_inverses (c : AnnotationContainer) (hr : Reachable c) :
    (c.curVersion < (c.ops.length : Int) - 1 →
      ∃ c1 c2, redo c = .ok c1 ∧ undo c1 = .ok c2 ∧ c2.items = c.items ∧ c2.ops = c.ops ∧
        c2.curVersion = c.curVersion) ∧
    (c.curVersion ≠ -1 →
      ∃ c1 c2, undo c = .ok c1 ∧ redo c1 = .ok c2 ∧ c2.items = c.items ∧ c2.ops = c.ops ∧
        c2.curVersion = c.curVersion) := by
  constructor
  · intro h
    obtain ⟨c1, h1, _, _, _, _, hback⟩ := redo_of_consistent hr.consistent (by omega)
    exact ⟨c1, c, h1, hback, rfl, rfl, rfl⟩
  · intro h
    obtain ⟨c1, h1, _, _, _, _, hback⟩ := undo_of_consistent hr.consistent h
    exact ⟨c1, c, h1, hback, rfl, rfl, rfl⟩

/-- C19 at the state `afterUndo`, where undo and redo are both available. -/
theorem C19_single_step_inverses_witness :
    Reachable afterUndo ∧
      (∃ c1 c2, redo afterUndo = .ok c1 ∧ undo c1 = .ok c2 ∧ c2.items = afterUndo.items ∧
        c2.ops = afterUndo.ops ∧ c2.curVersion = afterUndo.curVersion) ∧
      ∃ c1 c2, undo afterUndo = .ok c1 ∧ redo c1 = .ok c2 ∧ c2.items = afterUndo.items ∧
        c2.ops = afterUndo.ops ∧ c2.curVersion = afterUndo.curVersion :=
  ⟨reachable_of_runCalls sessionUndo afterUndo (by decide),
    (C19_single_step_inverses afterUndo
      (reachable_of_runCalls sessionUndo afterUndo (by decide))).1 (by decide),
    (C19_single_step_inverses afterUndo
      (reachable_of_runCalls sessionUndo afterUndo (by decide))).2 (by decide)⟩

/-! ## Claims on JSON import -/

theorem runCalls_push_backs_at_last :
    ∀ (added : List AnnotationItem) (c : AnnotationContainer),
      c.curVersion = (c.ops.length : Int) - 1 →
      runCalls c (added.map Call.push_back) = .ok
        { items := c.items ++ added, ops := c.ops ++ added.map pushEntry,
          curVersion := c.curVersion + (added.length : Int), selectedIdx := c.selectedIdx } := by
  intro added
  induction added with
  | nil => intro c _; simp [runCalls]
  | cons item rest ih =>
    intro c hcur
    have h1 := push_back_eq c item c.ops [] (by simp) hcur
    simp only [List.map_cons, runCalls, step, h1, Outcome.andThen]
    rw [ih _ (by simp)]
    simp only [pushEntry, List.append_assoc, List.singleton_append, List.length_cons,
      Outcome.ok.injEq, AnnotationContainer.mk.injEq, true_and, and_true]
    omega

theorem fromJsonArray_objects (dec : ItemDecoders) (format : String) :
    ∀ (objs : List QJsonObject) (decoded : List AnnotationItem) (c : AnnotationContainer),
      ((format = "Detection " ∧ objs.map dec.rect = decoded.map Result.ok) ∨
        (format = "Segmentation " ∧ objs.map dec.seg = decoded.map Result.ok)) →
      fromJsonArray dec c (objs.map QJsonValue.object) format =
        runCalls c (decoded.map Call.push_back) := by
  intro objs
  induction objs with
  | nil =>
    intro decoded c h
    have hd : decoded = [] := by
      rcases h with ⟨_, h⟩ | ⟨_, h⟩ <;> simpa using h.symm
    subst hd
    simp [fromJsonArray, runCalls]
  | cons obj objs ih =>
    intro decoded c h
    cases decoded with
    | nil => rcases h with ⟨_, h⟩ | ⟨_, h⟩ <;> simp at h
    | cons item rest =>
      rcases h with ⟨hf, h⟩ | ⟨hf, h⟩
      · simp only [List.map_cons, List.cons.injEq] at h
        have hne : ¬ ("Detection " = "Segmentation ") := by decide
        subst hf
        simp only [List.map_cons, fromJsonArray, if_true, h.1, runCalls, step]
        congr 1
        funext c1
        exact ih rest c1 (Or.inl ⟨rfl, h.2⟩)
      · simp only [List.map_cons, List.cons.injEq] at h
        have hne : ¬ ("Segmentation " = "Detection ") := by decide
        subst hf
        simp only [List.map_cons, fromJsonArray, hne, if_false, if_true, h.1, runCalls, step]
        congr 1
        funext c1
        exact ih rest c1 (Or.inr ⟨rfl, h.2⟩)

/-- C11. Import is a sequence of adds: in a reachable state, for an array whose elements
are all objects, each decoded to an item by the decoder of the format `"Detection "` or
`"Segmentation "`, `fromJsonArray` does what `push_back` on the decoded items in array
order does: it returns normally, the items are the old items followed by the decoded
ones, and (for a non-empty array) the log is the kept part of the old log followed by
one PUSH entry per element; after a one-element import a single `undo()` gives the old
items back. -/
theorem C11_import_is_adds (dec : ItemDecoders) (c : AnnotationContainer)
    (objs : List QJsonObject) (decoded : List AnnotationItem) (format : String)
    (hr : Reachable c)
    (hdec : (format = "Detection " ∧ objs.map dec.rect = decoded.map Result.ok) ∨
      (format = "Segmentation " ∧ objs.map dec.seg = decoded.map Result.ok)) :
    fromJsonArray dec c (objs.map QJsonValue.object) format =
        runCalls c (decoded.map Call.push_back) ∧
      ∃ c1, fromJsonArray dec c (objs.map QJsonValue.object) format = .ok c1 ∧
        c1.items = c.items ++ decoded ∧ c1.selectedIdx = c.selectedIdx ∧
        (decoded = [] → c1 = c) ∧
        (decoded ≠ [] →
          c1.ops = c.ops.take (c.curVersion + 1).toNat ++ decoded.map pushEntry ∧
            c1.curVersion = (c1.ops.length : Int) - 1) ∧
        (∀ item, decoded = [item] → ∃ c2, undo c1 = .ok c2 ∧ c2.items = c.items) := by
  have himport := fromJsonArray_objects dec format objs decoded c hdec
  refine ⟨himport, ?_⟩
  rw [himport]
  obtain ⟨past, future, _, hops, hcur, _, _⟩ := hr.consistent
  cases decoded with
  | nil =>
    exact ⟨c, rfl, by simp, rfl, fun _ => rfl, fun h => absurd rfl h, fun item h => by cases h⟩
  | cons first rest =>
    have h1 := push_back_eq c first past future hops hcur
    have h2 := runCalls_push_backs_at_last rest
      { items := c.items ++ [first], ops := past ++ [pushEntry first],
        curVersion := (past.length : Int), selectedIdx := c.selectedIdx } (by simp)
    have hrun : runCalls c ((first :: rest).map Call.push_back) = .ok
        { items := c.items ++ [first] ++ rest,
          ops := past ++ [pushEntry first] ++ rest.map pushEntry,
          curVersion := (past.length : Int) + (rest.length : Int),
          selectedIdx := c.selectedIdx } := by
      simp only [List.map_cons, runCalls, step]
      rw [h1]
      exact h2
    refine ⟨_, hrun, by simp, rfl, fun h => List.noConfusion h, fun _ => ⟨?_, ?_⟩, ?_⟩
    · rw [take_cursor_eq c past future hops hcur]
      simp
    · simp only [List.length_append, List.length_map, List.length_singleton]
      push_cast
      omega
    · intro item hitem
      simp only [List.cons.injEq] at hitem
      obtain ⟨hfirst, hrest⟩ := hitem
      subst hfirst hrest
      have hrec : Records (pushEntry first) c.items (c.items ++ [first]) := rfl
      have hundo := undo_eq
        { items := c.items ++ [first] ++ [],
          ops := past ++ [pushEntry first] ++ ([] : List AnnotationItem).map pushEntry,
          curVersion := (past.length : Int) + (([] : List AnnotationItem).length : Int),
          selectedIdx := c.selectedIdx }
        past [] (pushEntry first) c.items (by simp) (by simp) (by simpa using hrec)
      exact ⟨_, hundo, rfl⟩

/-- C11 on the spec's example: importing the one object `dogObject` with the format
`"Detection "` into the state `afterUndo` adds the item `dogA` and one PUSH entry, which
replaces the undone entry, and one `undo()` takes the item away again. -/
theorem C11_import_is_adds_witness :
    Reachable afterUndo ∧
      fromJsonArray dogDecoders afterUndo [QJsonValue.object dogObject] "Detection " =
        .ok afterImport ∧
      (fromJsonArray dogDecoders afterUndo ([dogObject].map QJsonValue.object) "Detection " =
          runCalls afterUndo ([dogA].map Call.push_back) ∧
        ∃ c1, fromJsonArray dogDecoders afterUndo ([dogObject].map QJsonValue.object)
            "Detection " = .ok c1 ∧
          c1.items = afterUndo.items ++ [dogA] ∧ c1.selectedIdx = afterUndo.selectedIdx ∧
          ([dogA] = [] → c1 = afterUndo) ∧
          ([dogA] ≠ [] →
            c1.ops = afterUndo.ops.take (afterUndo.curVersion + 1).toNat ++
                [dogA].map pushEntry ∧
              c1.curVersion = (c1.ops.length : Int) - 1) ∧
          (∀ item, [dogA] = [item] → ∃ c2, undo c1 = .ok c2 ∧ c2.items = afterUndo.items)) :=
  ⟨reachable_of_runCalls sessionUndo afterUndo (by decide), by decide,
    C11_import_is_adds dogDecoders afterUndo [dogObject] [dogA] "Detection "
      (reachable_of_runCalls sessionUndo afterUndo (by decide)) (Or.inl ⟨rfl, rfl⟩)⟩

theorem fromJsonArray_other_format (dec : ItemDecoders) (format : String)
    (hd : format ≠ "Detection ") (hs : format ≠ "Segmentation ") :
    ∀ (json : List QJsonValue) (c : AnnotationContainer),
      fromJsonArray dec c json format = .ok c := by
  intro json
  induction json with
  | nil => intro c; simp [fromJsonArray]
  | cons value rest ih =>
    intro c
    cases value <;> simp [fromJsonArray, hd, hs, ih]

theorem fromJsonArray_filter_objects (dec : ItemDecoders) (format : String) :
    ∀ (json : List QJsonValue) (c : AnnotationContainer),
      fromJsonArray dec c json format =
        fromJsonArray dec c (json.filter QJsonValue.isObject) format := by
  intro json
  induction json with
  | nil => intro c; rfl
  | cons value rest ih =>
    intro c
    cases value with
    | object obj =>
      have hstep : ∀ item, (push_back c item).andThen (fun c1 => fromJsonArray dec c1 rest format) =
          (push_back c item).andThen
            (fun c1 => fromJsonArray dec c1 (rest.filter QJsonValue.isObject) format) := by
        intro item
        congr 1
        funext c1
        exact ih c1
      simp only [List.filter_cons, QJsonValue.isObject, if_true, fromJsonArray]
      split
      · split <;> simp [hstep]
      · split
        · split <;> simp [hstep]
        · exact ih c
    | _ => simpa [List.filter_cons, QJsonValue.isObject, fromJsonArray] using ih c

/-- C18. Unrecognised input is skipped silently: under every format string other than
exactly `"Detection "` and `"Segmentation "`, `fromJsonArray` returns normally in the
unchanged state; under any format the elements that are not JSON objects have no effect
(the call does what it does on the array of the object elements alone), and an array
without object elements leaves the state unchanged. -/
theorem C18_unrecognised_input_skipped (dec : ItemDecoders) (c : AnnotationContainer)
    (json : List QJsonValue) (format : String) :
    (format ≠ "Detection " → format ≠ "Segmentation " →
      fromJsonArray dec c json format = .ok c) ∧
    fromJsonArray dec c json format =
      fromJsonArray dec c (json.filter QJsonValue.isObject) format ∧
    ((∀ value ∈ json, value.isObject = false) → fromJsonArray dec c json format = .ok c) := by
  refine ⟨fun hd hs => fromJsonArray_other_format dec format hd hs json c,
    fromJsonArray_filter_objects dec format json c, ?_⟩
  intro hnone
  rw [fromJsonArray_filter_objects]
  have hfilter : json.filter QJsonValue.isObject = [] := by
    rw [List.filter_eq_nil_iff]
    intro value hv
    simp [hnone value hv]
  rw [hfilter]
  rfl

/-- C18 at the state `afterUndo`: the format `"Detection"` without the trailing space
imports nothing, and under `"Detection "` the string and the number around `dogObject`
are passed over. -/
theorem C18_unrecognised_input_skipped_witness :
    fromJsonArray dogDecoders afterUndo [.object dogObject, .object dogObject] "Detection" =
        .ok afterUndo ∧
      fromJsonArray dogDecoders afterUndo [.string "dog", .object dogObject, .double 7]
          "Detection " =
        fromJsonArray dogDecoders afterUndo [.object dogObject] "Detection " ∧
      fromJsonArray dogDecoders afterUndo [.string "dog", .null, .array []] "Segmentation " =
        .ok afterUndo :=
  ⟨(C18_unrecognised_input_skipped dogDecoders afterUndo [.object dogObject, .object dogObject]
      "Detection").1 (by decide) (by decide),
    (C18_unrecognised_input_skipped dogDecoders afterUndo
      [.string "dog", .object dogObject, .double 7] "Detection ").2.1,
    (C18_unrecognised_input_skipped dogDecoders afterUndo [.string "dog", .null, .array []]
      "Segmentation ").2.2 (by simp [QJsonValue.isObject])⟩

/-! ## The selection index -/

theorem step_selectedIdx {c c1 : AnnotationContainer} {call : Call} (h : Consistent c)
    (hok : step c call = .ok c1) :
    (∃ idx, call = .setSelected idx ∧ c1.selectedIdx = idx ∧ c1.items = c.items) ∨
      (call = .allClear ∧ c1.selectedIdx = -1 ∧ c1.items = []) ∨
      ((∀ idx, call ≠ .setSelected idx) ∧ call ≠ .allClear ∧
        c1.selectedIdx = c.selectedIdx) := by
  cases hcall : call.isEdit with
  | true =>
    obtain ⟨_, _, _, _, _, _, _, hsel, _, _⟩ := edit_ok_spec h hcall hok
    right; right
    refine ⟨?_, ?_, hsel⟩
    · intro idx hc; subst hc; simp [Call.isEdit] at hcall
    · intro hc; subst hc; simp [Call.isEdit] at hcall
  | false =>
    cases call with
    | push_back item => simp [Call.isEdit] at hcall
    | remove idx => simp [Call.isEdit] at hcall
    | modify idx item => simp [Call.isEdit] at hcall
    | undo =>
      obtain ⟨c2, h2, _, hsel, _⟩ := undo_total h
      simp only [step, h2, Outcome.ok.injEq] at hok
      subst hok
      right; right
      exact ⟨fun idx hc => Call.noConfusion hc, fun hc => Call.noConfusion hc, hsel⟩
    | redo =>
      obtain ⟨c2, h2, _, hsel, _⟩ := redo_total h
      simp only [step, h2, Outcome.ok.injEq] at hok
      subst hok
      right; right
      exact ⟨fun idx hc => Call.noConfusion hc, fun hc => Call.noConfusion hc, hsel⟩
    | setSelected idx =>
      simp only [step, setSelected, Outcome.ok.injEq] at hok
      subst hok
      left
      exact ⟨idx, rfl, rfl, rfl⟩
    | allClear =>
      simp only [step, allClear, Outcome.ok.injEq] at hok
      subst hok
      right; left
      exact ⟨rfl, rfl, rfl⟩

theorem runSession_invariant (allowed : Call → Bool) (P : AnnotationContainer → Prop)
    (hstep : ∀ (c c1 : AnnotationContainer) (call : Call), Consistent c → P c →
      allowed call = true → call.selectArgValid c = true → step c call = .ok c1 → P c1) :
    ∀ (calls : List Call) (c s : AnnotationContainer), Consistent c → P c →
      runSession allowed c calls = some s → P s := by
  intro calls
  induction calls with
  | nil =>
    intro c s _ hp h
    simp only [runSession, Option.some.injEq] at h
    exact h ▸ hp
  | cons call rest ih =>
    intro c s hc hp h
    simp only [runSession] at h
    split at h
    · rename_i hcond
      simp only [Bool.and_eq_true] at hcond
      split at h
      · rename_i c1 hok
        exact ih c1 s (step_ok_consistent hc hok) (hstep c c1 call hc hp hcond.1 hcond.2 hok) h
      · rename_i e c1 hthrown
        have hsame := (step_thrown_consistent hc hthrown).1
        subst hsame
        exact ih c1 s hc hp h
      · cases h
    · cases h

/-- C12, as stated, fails: each of the three sessions below makes its one `setSelected`
call with a valid index, and ends with `selectedIdx` beyond the last position, after a
`remove`, an `undo` and a `redo` respectively. -/
theorem C12_selection_range_counterexample :
    (runSession Call.any init sessionSelectRemove = some afterSelectRemove ∧
        ¬ (afterSelectRemove.selectedIdx ≤ (afterSelectRemove.items.length : Int) - 1)) ∧
      (runSession Call.any init sessionSelectUndo = some afterSelectUndo ∧
        ¬ (afterSelectUndo.selectedIdx ≤ (afterSelectUndo.items.length : Int) - 1)) ∧
      (runSession Call.any init sessionSelectRedo = some afterSelectRedo ∧
        ¬ (afterSelectRedo.selectedIdx ≤ (afterSelectRedo.items.length : Int) - 1)) := by
  decide

theorem selection_lower_step (c c1 : AnnotationContainer) (call : Call) (hc : Consistent c)
    (hp : -1 ≤ c.selectedIdx) (hvalid : call.selectArgValid c = true)
    (hok : step c call = .ok c1) : -1 ≤ c1.selectedIdx := by
  rcases step_selectedIdx hc hok with ⟨idx, hcall, hsel, _⟩ | ⟨_, hsel, _⟩ | ⟨_, _, hsel⟩
  · subst hcall
    simp only [Call.selectArgValid, decide_eq_true_eq] at hvalid
    omega
  · omega
  · omega

theorem selection_range_step (c c1 : AnnotationContainer) (call : Call) (hc : Consistent c)
    (hp : c.selectedIdx ≤ (c.items.length : Int) - 1)
    (hallowed : call.notRemoveUndoRedo = true) (hvalid : call.selectArgValid c = true)
    (hok : step c call = .ok c1) : c1.selectedIdx ≤ (c1.items.length : Int) - 1 := by
  rcases step_selectedIdx hc hok with ⟨idx, hcall, hsel, hitems⟩ | ⟨_, hsel, hitems⟩ |
    ⟨_, _, hsel⟩
  · subst hcall
    simp only [Call.selectArgValid, decide_eq_true_eq] at hvalid
    rw [hitems]
    omega
  · rw [hitems, hsel]
    simp
  · have hlen : (c.items.length : Int) ≤ (c1.items.length : Int) := by
      obtain ⟨past, future, _, hops, hcur, _, _⟩ := hc
      cases call with
      | push_back item =>
        simp only [step, push_back_eq c item past future hops hcur, Outcome.ok.injEq] at hok
        subst hok
        simp
      | modify idx item =>
        by_cases hin : 0 ≤ idx ∧ idx < (c.items.length : Int)
        · obtain ⟨old, hold⟩ := getAt_isSome_of_range c.items idx hin.1 hin.2
          simp only [step, modify_eq c idx item old past future hops hcur hold,
            Outcome.ok.injEq] at hok
          subst hok
          simp
        · simp [step, modify_out_of_range c idx item hin] at hok
      | remove idx => simp [Call.notRemoveUndoRedo] at hallowed
      | undo => simp [Call.notRemoveUndoRedo] at hallowed
      | redo => simp [Call.notRemoveUndoRedo] at hallowed
      | setSelected idx =>
        simp only [step, setSelected, Outcome.ok.injEq] at hok
        subst hok
        simp
      | allClear => simp at *
    omega

theorem runSession_consistent (allowed : Call → Bool) :
    ∀ (calls : List Call) (c s : AnnotationContainer), Consistent c →
      runSession allowed c calls = some s → Consistent s := by
  intro calls c s hc h
  exact runSession_invariant allowed Consistent
    (fun _ _ _ hcons _ _ _ hok => step_ok_consistent hcons hok) calls c s hc hc h

theorem runSession_append (allowed : Call → Bool) :
    ∀ (l1 l2 : List Call) (c : AnnotationContainer),
      runSession allowed c (l1 ++ l2) =
        (runSession allowed c l1).bind fun c1 => runSession allowed c1 l2 := by
  intro l1
  induction l1 with
  | nil => intro l2 c; rfl
  | cons call rest ih =>
    intro l2 c
    simp only [List.cons_append, runSession]
    split
    · split
      · exact ih l2 _
      · exact ih l2 _
      · rfl
    · rfl

theorem runSession_restrict (allowed : Call → Bool) :
    ∀ (calls : List Call) (c s : AnnotationContainer),
      (∀ call ∈ calls, allowed call = true) →
      runSession Call.any c calls = some s → runSession allowed c calls = some s := by
  intro calls
  induction calls with
  | nil => intro c s _ h; exact h
  | cons call rest ih =>
    intro c s hall h
    have hcall := hall call (List.mem_cons_self _ _)
    have hrest : ∀ x ∈ rest, allowed x = true := fun x hx => hall x (List.mem_cons_of_mem _ hx)
    simp only [runSession, Call.any, Bool.true_and, hcall] at h ⊢
    split at h
    · rename_i hvalid
      rw [if_pos hvalid]
      split at h
      · rename_i c1 hok
        exact ih c1 s hrest h
      · rename_i e c1 hthrown
        exact ih c1 s hrest h
      · cases h
    · cases h

theorem selection_in_range_after_setter (before : List Call) (last : Call)
    (s0 : AnnotationContainer)
    (hrun : runSession Call.any init (before ++ [last]) = some s0)
    (hlast : last = .allClear ∨ ∃ idx, last = .setSelected idx) :
    s0.selectedIdx ≤ (s0.items.length : Int) - 1 := by
  rw [runSession_append] at hrun
  cases hmid : runSession Call.any init before with
  | none => rw [hmid] at hrun; cases hrun
  | some c =>
    rw [hmid] at hrun
    simp only [Option.bind, runSession, Call.any, Bool.true_and] at hrun
    split at hrun
    · rename_i hvalid
      rcases hlast with hclear | ⟨idx, hsel⟩
      · subst hclear
        simp only [step, allClear, Option.some.injEq] at hrun
        subst hrun
        simp
      · subst hsel
        simp only [Call.selectArgValid, decide_eq_true_eq] at hvalid
        simp only [step, setSelected, Option.some.injEq] at hrun
        subst hrun
        show idx ≤ (c.items.length : Int) - 1
        omega
    · cases hrun

/-- C12, amended. In a session from the initial state in which each `setSelected` argument
is `-1` or a valid index at the time of the call, `selectedIdx` is always at least `-1`;
and it lies in `[-1, items.length-1]` at the end `s` whenever no `remove`, `undo` or
`redo` call was made since a point `s0` of the session at which it was in range: in
particular since the start, since a `setSelected` call or since a clear. -/
theorem C12_selection_range_amended (pre post : List Call) (s0 s : AnnotationContainer)
    (hpre : runSession Call.any init pre = some s0)
    (hpost : runSession Call.any s0 post = some s) :
    -1 ≤ s.selectedIdx ∧
      ((s0.selectedIdx ≤ (s0.items.length : Int) - 1 ∨ pre = [] ∨
          ∃ before last, pre = before ++ [last] ∧
            (last = .allClear ∨ ∃ idx, last = .setSelected idx)) →
        (∀ call ∈ post, call.notRemoveUndoRedo = true) →
        s.selectedIdx ≤ (s.items.length : Int) - 1) := by
  have hc0 : Consistent s0 := runSession_consistent Call.any pre init s0 consistent_init hpre
  have hlow0 : -1 ≤ s0.selectedIdx :=
    runSession_invariant Call.any (fun c => -1 ≤ c.selectedIdx)
      (fun c c1 call hc hp _ hvalid hok => selection_lower_step c c1 call hc hp hvalid hok)
      pre init s0 consistent_init (by decide) hpre
  refine ⟨?_, ?_⟩
  · exact runSession_invariant Call.any (fun c => -1 ≤ c.selectedIdx)
      (fun c c1 call hc hp _ hvalid hok => selection_lower_step c c1 call hc hp hvalid hok)
      post s0 s hc0 hlow0 hpost
  · intro hstart hquiet
    have hrange0 : s0.selectedIdx ≤ (s0.items.length : Int) - 1 := by
      rcases hstart with h | h | ⟨before, last, hsplit, hlast⟩
      · exact h
      · subst h
        simp only [runSession, Option.some.injEq] at hpre
        subst hpre
        decide
      · subst hsplit
        exact selection_in_range_after_setter before last s0 hpre hlast
    exact runSession_invariant Call.notRemoveUndoRedo
      (fun c => c.selectedIdx ≤ (c.items.length : Int) - 1)
      (fun c c1 call hc hp hallowed hvalid hok =>
        selection_range_step c c1 call hc hp hallowed hvalid hok)
      post s0 s hc0 hrange0 (runSession_restrict Call.notRemoveUndoRedo post s0 s hquiet hpost)

/-- C12 amended, at the session `sessionRemoveSelect`, which removes before it selects,
followed by `sessionAddModify`, which makes no remove, undo or redo. -/
theorem C12_selection_range_amended_witness :
    runSession Call.any init sessionRemoveSelect = some afterRemoveSelect ∧
      runSession Call.any afterRemoveSelect sessionAddModify = some afterAddModify ∧
      -1 ≤ afterAddModify.selectedIdx ∧
      afterAddModify.selectedIdx ≤ (afterAddModify.items.length : Int) - 1 :=
  ⟨by decide, by decide,
    (C12_selection_range_amended sessionRemoveSelect sessionAddModify afterRemoveSelect
      afterAddModify (by decide) (by decide)).1,
    (C12_selection_range_amended sessionRemoveSelect sessionAddModify afterRemoveSelect
      afterAddModify (by decide) (by decide)).2
      (Or.inr (Or.inr ⟨[.push_back catA, .push_back catB, .remove 0], .setSelected 0, rfl,
        Or.inr ⟨0, rfl⟩⟩))
      (by decide)⟩

/-! ## The canvas: the pending-point list has length 0 or 2 -/

/-- One event in detection/draw/rectangle mode: from a pending list of length 0 or 2 the
handler returns, in the same mode, with a pending list of length 0 or 2. -/
theorem handle_draw_rectangle (env : CanvasEnv) (c : Canvas) (call : MouseCall)
    (htask : c.task = .DETECTION) (hmode : c.mode = .DRAW)
    (hcreate : c.createMode = .RECTANGLE)
    (hlen : c.curPoints.length = 0 ∨ c.curPoints.length = 2) :
    ∃ c1, handle env c call = .ok c1 ∧ c1.task = .DETECTION ∧ c1.mode = .DRAW ∧
      c1.createMode = .RECTANGLE ∧ (c1.curPoints.length = 0 ∨ c1.curPoints.length = 2) := by
  cases call with
  | press event =>
    unfold handle mousePressEvent
    simp only [htask, hmode, hcreate]
    by_cases hnull : c.pixmapIsNull = true
    · rw [if_pos hnull]
      exact ⟨c, rfl, htask, hmode, hcreate, hlen⟩
    · rw [if_neg hnull]
      cases event.button with
      | LeftButton =>
        rcases hlen with h0 | h2
        · simp only [h0, if_true]
          split
          · refine ⟨_, rfl, rfl, rfl, rfl, Or.inr ?_⟩
            simp [h0]
          · exact ⟨c, rfl, htask, hmode, hcreate, Or.inl h0⟩
        · have hne : ¬ (2 = 0) := by decide
          simp only [h2, hne, if_false, if_true]
          exact ⟨_, rfl, rfl, rfl, rfl, Or.inl rfl⟩
      | RightButton =>
        rcases hlen with h0 | h2
        · simp only [h0, if_true]
          exact ⟨c, rfl, htask, hmode, hcreate, Or.inl h0⟩
        · have hne : ¬ (2 = 0) := by decide
          simp only [h2, hne, if_false, if_true]
          exact ⟨_, rfl, rfl, rfl, rfl, Or.inl rfl⟩
      | otherButton => exact ⟨c, rfl, htask, hmode, hcreate, hlen⟩
  | move event =>
    unfold handle mouseMoveEvent
    simp only [htask, hmode, hcreate]
    by_cases hnull : c.pixmapIsNull = true
    · rw [if_pos hnull]
      exact ⟨c, rfl, htask, hmode, hcreate, hlen⟩
    · rw [if_neg hnull]
      rcases hlen with h0 | h2
      · have hne : ¬ (0 = 2) := by decide
        simp only [h0, hne, if_false, ne_eq, not_true_eq_false]
        exact ⟨c, rfl, htask, hmode, hcreate, Or.inl h0⟩
      · simp only [h2, if_true]
        refine ⟨_, rfl, rfl, rfl, rfl, Or.inr ?_⟩
        simp [h2]

/-- C20. Starting with no pending point, in detection/draw/rectangle mode, every sequence
of mouse-press and mouse-move events (any button, any position, any scale and offset) is
handled without reaching the `Anomaly length of curPoints` throw, and leaves `curPoints`
with length 0 or 2. -/
theorem C20_curPoints_length (events : List (CanvasEnv × MouseCall)) (c : Canvas)
    (hempty : c.curPoints = [])
    (hmode : c.task = .DETECTION ∧ c.mode = .DRAW ∧ c.createMode = .RECTANGLE) :
    ∃ c1, runEvents c events = .ok c1 ∧
      (c1.curPoints.length = 0 ∨ c1.curPoints.length = 2) := by
  have hgen : ∀ (evs : List (CanvasEnv × MouseCall)) (s : Canvas),
      s.task = .DETECTION → s.mode = .DRAW → s.createMode = .RECTANGLE →
      (s.curPoints.length = 0 ∨ s.curPoints.length = 2) →
      ∃ s1, runEvents s evs = .ok s1 ∧
        (s1.curPoints.length = 0 ∨ s1.curPoints.length = 2) := by
    intro evs
    induction evs with
    | nil => intro s _ _ _ hlen; exact ⟨s, rfl, hlen⟩
    | cons ev rest ih =>
      intro s ht hm hc hlen
      obtain ⟨env, call⟩ := ev
      obtain ⟨s1, h1, ht1, hm1, hc1, hlen1⟩ := handle_draw_rectangle env s call ht hm hc hlen
      simp only [runEvents, h1]
      exact ih s1 ht1 hm1 hc1 hlen1
  exact hgen events c hmode.1 hmode.2.1 hmode.2.2 (Or.inl (by rw [hempty]; rfl))

/-- C20 at the canvas `drawingCanvas` and the events `sampleEvents`, which end with the
two pending points of a rectangle started at (20, 20). -/
theorem C20_curPoints_length_witness :
    runEvents drawingCanvas sampleEvents =
        .ok { drawingCanvas with curPoints := [⟨20, 20⟩, ⟨20, 20⟩] } ∧
      ∃ c1, runEvents drawingCanvas sampleEvents = .ok c1 ∧
        (c1.curPoints.length = 0 ∨ c1.curPoints.length = 2) :=
  ⟨by decide, C20_curPoints_length sampleEvents drawingCanvas rfl ⟨rfl, rfl, rfl⟩⟩

/-! ## Instance ids across a session -/

theorem getAt_append_of_lt {α : Type} (p l : List α) (i : Int) (h0 : 0 ≤ i)
    (h : i < (p.length : Int)) : getAt (p ++ l) i = getAt p i := by
  unfold getAt
  rw [if_pos h0, if_pos h0, List.getElem?_append_left (by omega)]

theorem runCatching_consistent :
    ∀ (calls : List Call) (c s : AnnotationContainer), Consistent c →
      runCatching c calls = some s → Consistent s := by
  intro calls
  induction calls with
  | nil =>
    intro c s hc h
    simp only [runCatching, Option.some.injEq] at h
    exact h ▸ hc
  | cons call rest ih =>
    intro c s hc h
    simp only [runCatching] at h
    split at h
    · rename_i c1 hok
      exact ih c1 s (step_ok_consistent hc hok) h
    · rename_i e c1 hthrown
      have hsame := (step_thrown_consistent hc hthrown).1
      subst hsame
      exact ih c1 s hc h
    · cases h

theorem step_keeps_entry {c c1 : AnnotationContainer} {call : Call} {i : Int}
    {e : AnnotationOp} (hc : Consistent c) (hentry : getAt c.ops i = some e)
    (hok : step c call = .ok c1) (hclear : call ≠ .allClear)
    (hkeep : (call.isEdit && decide (c.curVersion < i)) = false) :
    getAt c1.ops i = some e := by
  cases hedit : call.isEdit with
  | true =>
    rw [hedit] at hkeep
    simp only [Bool.true_and, decide_eq_false_iff_not, not_lt] at hkeep
    obtain ⟨past, future, entry, hops, hcur, hops1, _, _, _, _⟩ := edit_ok_spec hc hedit hok
    have hrange := getAt_range _ _ _ hentry
    rw [hops, getAt_append_of_lt past future i hrange.1 (by omega)] at hentry
    rw [hops1, getAt_append_of_lt past [entry] i hrange.1 (by omega)]
    exact hentry
  | false =>
    cases call with
    | push_back item => simp [Call.isEdit] at hedit
    | remove idx => simp [Call.isEdit] at hedit
    | modify idx item => simp [Call.isEdit] at hedit
    | undo =>
      obtain ⟨c2, h2, hops, _⟩ := undo_total hc
      simp only [step, h2, Outcome.ok.injEq] at hok
      subst hok
      rw [hops]
      exact hentry
    | redo =>
      obtain ⟨c2, h2, hops, _⟩ := redo_total hc
      simp only [step, h2, Outcome.ok.injEq] at hok
      subst hok
      rw [hops]
      exact hentry
    | setSelected idx =>
      simp only [step, setSelected, Outcome.ok.injEq] at hok
      subst hok
      exact hentry
    | allClear => exact absurd rfl hclear

theorem session_keeps_entry (i : Int) (e : AnnotationOp) :
    ∀ (calls : List Call) (c s : AnnotationContainer), Consistent c →
      getAt c.ops i = some e → runCatching c calls = some s →
      (∀ call ∈ calls, call ≠ Call.allClear) → discards i c calls = false →
      getAt s.ops i = some e := by
  intro calls
  induction calls with
  | nil =>
    intro c s _ hentry h _ _
    simp only [runCatching, Option.some.injEq] at h
    exact h ▸ hentry
  | cons call rest ih =>
    intro c s hc hentry h hclear hkeep
    have hrest : ∀ x ∈ rest, x ≠ Call.allClear :=
      fun x hx => hclear x (List.mem_cons_of_mem _ hx)
    simp only [runCatching] at h
    simp only [discards] at hkeep
    split at h
    · rename_i c1 hok
      simp only [hok, Bool.or_eq_false_iff] at hkeep
      exact ih c1 s (step_ok_consistent hc hok)
        (step_keeps_entry hc hentry hok (hclear call (List.mem_cons_self _ _)) hkeep.1)
        h hrest hkeep.2
    · rename_i err c1 hthrown
      simp only [hthrown] at hkeep
      have hsame := (step_thrown_consistent hc hthrown).1
      subst hsame
      exact ih c1 s hc hentry h hrest hkeep
    · cases h

theorem mem_recorded_of_entry (c : AnnotationContainer) (i : Int) (e : AnnotationOp)
    (x : AnnotationItem) (hentry : getAt c.ops i = some e)
    (hx : x = e.item ∨ e.item2 = some x) : x ∈ recorded c := by
  have hmem : e ∈ c.ops := by
    rw [getAt_eq_some_iff] at hentry
    exact List.getElem?_mem hentry.2
  unfold recorded
  rw [List.mem_append, List.mem_flatMap]
  right
  refine ⟨e, hmem, ?_⟩
  rcases hx with h | h
  · rw [h]; exact List.mem_cons_self _ _
  · rw [h]; simp

theorem passed_item_logged (c c1 : AnnotationContainer) (call : Call) (x : AnnotationItem)
    (hc : Consistent c) (hcall : call = .push_back x ∨ ∃ idx, call = .modify idx x)
    (hok : step c call = .ok c1) :
    ∃ e, getAt c1.ops c1.curVersion = some e ∧ (x = e.item ∨ e.item2 = some x) := by
  obtain ⟨past, future, _, hops, hcur, _, _⟩ := hc
  rcases hcall with h | ⟨idx, h⟩
  · subst h
    simp only [step, push_back_eq c x past future hops hcur, Outcome.ok.injEq] at hok
    subst hok
    exact ⟨_, getAt_append_length past _ [], Or.inl rfl⟩
  · subst h
    by_cases hin : 0 ≤ idx ∧ idx < (c.items.length : Int)
    · obtain ⟨old, hold⟩ := getAt_isSome_of_range c.items idx hin.1 hin.2
      simp only [step, modify_eq c idx x old past future hops hcur hold, Outcome.ok.injEq] at hok
      subst hok
      exact ⟨_, getAt_append_length past _ [], Or.inr rfl⟩
    · simp [step, modify_out_of_range c idx x hin] at hok

/-- C3, amended. Take any session from the initial state (the caller going on after a
call that threw), then an add or modify call that is passed the item `x` and returns, then
any further calls without clear that do not discard the log entry of that call (no add,
remove or modify returns from a state whose cursor is below that entry). Then at the end a
successful `newInstanceIdForLabel` for the label of `x` returns a value strictly greater
than the id of `x`, also when `x` was removed later or the call was undone. -/
theorem C3_ids_not_reused_while_logged (pre post : List Call) (call : Call)
    (x : AnnotationItem) (s0 s1 s : AnnotationContainer) (label : String) (n : Int)
    (hpre : runCatching init pre = some s0)
    (hcall : call = .push_back x ∨ ∃ idx, call = .modify idx x)
    (hok : step s0 call = .ok s1)
    (hpost : runCatching s1 post = some s)
    (hclear : ∀ later ∈ post, later ≠ Call.allClear)
    (hkept : discards s1.curVersion s1 post = false)
    (hl : x.label = label)
    (hn : newInstanceIdForLabel s label = .ok n) : x.id < n := by
  have hc0 := runCatching_consistent pre init s0 consistent_init hpre
  have hc1 := step_ok_consistent hc0 hok
  obtain ⟨e, hentry, hx⟩ := passed_item_logged s0 s1 call x hc0 hcall hok
  have hfinal := session_keeps_entry s1.curVersion e post s1 s hc1 hentry hpost hclear hkept
  exact next_id_above_recorded s label x n
    (mem_recorded_of_entry s s1.curVersion e x hfinal hx) hl hn

/-- C3 amended, at the session add `catA` followed by `sessionAllUndone`: `catA` is removed
and its add is undone, its entry stays in the log, and the next id for `cat` is 1. The
rest undo, add `dogA` of the session `sessionReuse` is one that discards the entry. -/
theorem C3_ids_not_reused_while_logged_witness :
    step init (.push_back catA) = .ok afterAddCat ∧
      runCatching afterAddCat sessionAllUndone = some afterAllUndone ∧
      discards afterAddCat.curVersion afterAddCat sessionAllUndone = false ∧
      discards afterAddCat.curVersion afterAddCat [.undo, .push_back dogA] = true ∧
      catA ∉ afterAllUndone.items ∧ newInstanceIdForLabel afterAllUndone "cat" = .ok 1 ∧
      catA.id < 1 :=
  ⟨by decide, by decide, by decide, by decide, by decide, by decide,
    C3_ids_not_reused_while_logged [] sessionAllUndone (.push_back catA) catA init afterAddCat
      afterAllUndone "cat" 1 rfl (Or.inl rfl) (by decide) (by decide) (by decide) (by decide)
      (by decide) (by decide)⟩

end ImageLabeler
